import Mathlib

/-!
Verification of the Ocean-Scraper crawl orchestration engine.

This file gives a shallow embedding of the engine's core components,
translated from the TypeScript source:

* `src/core/scraper/crawling-service.ts` — the BFS frontier loop
  (`CrawlingService.crawlMultiPage`), job-status updates, page persistence,
  job cancellation (`cancelCrawlJob`), and the `LinkExtractor`
  normalisation/deduplication helpers;
* `src/core/progress/progress-tracker.ts` — the per-job progress snapshot
  and its event methods;
* `src/core/scraper/scraping-service.ts` — the `BrowserManager` bounded
  browser-instance pool;
* `src/core/queue/job-manager.ts` — `JobManager.cancelJob`.

Modelling conventions: JavaScript numbers are modelled as `Nat`/`Int`/`ℚ`
(`Math.round` becomes `jsRound`, i.e. `⌊q + 1/2⌋`); `Set<string>` becomes a
duplicate-free `List String` built with a guarded append; wall-clock reads
(`Date.now()`) become explicit `now` parameters; database writes become
fields of the state record; logging, stdout streaming, Redis mirroring and
listener callbacks are I/O and are not modelled.  The external page fetch
(`scrapingService.scrapePage` composed with `extractAndFilterLinks`) is an
oracle `String → FetchResult` supplied per run, since it is an external
collaborator of the engine.
-/

namespace OceanScraper

/-! ## Character-list utilities used by the URL model -/

/-- Splits a character list at the first occurrence of the separator `c`.
Returns the part before the separator, and `some` of the part after it when
the separator occurs (`none` otherwise). -/
def splitFirstChar (c : Char) : List Char → List Char × Option (List Char)
  | [] => ([], none)
  | x :: xs =>
    if x = c then ([], some xs)
    else
      let r := splitFirstChar c xs
      (x :: r.1, r.2)

/-- Splits a character list on every occurrence of the separator `c`
(the analogue of `String.prototype.split`). -/
def splitOnChar (c : Char) : List Char → List (List Char)
  | [] => [[]]
  | x :: xs =>
    if x = c then [] :: splitOnChar c xs
    else
      match splitOnChar c xs with
      | [] => [[x]]
      | a :: rest => (x :: a) :: rest

/-- Drops the expected leading character sequence `p` from `l`, returning
the remainder when `l` starts with `p` and `none` otherwise. -/
def dropStart? : List Char → List Char → Option (List Char)
  | [], l => some l
  | _ :: _, [] => none
  | c :: cs, x :: xs => if x = c then dropStart? cs xs else none

/-! ## URL model (the platform WHATWG `URL` class, restricted)

`LinkExtractor.normalizeUrl` (crawling-service.ts lines 989-1018) relies on
the Node.js `URL` class.  We model that external collaborator for plain
absolute `http:`/`https:` URLs written with a lowercase scheme and without
userinfo, percent-encoding or `+`-encoding: parsing splits off the fragment
at the first `#`, the query at the first `?`, the scheme prefix, and the
host at the first `/`; a missing path component parses as the root path
`/`.  `URLSearchParams` is modelled literally (split on `&`, empty segments
skipped, each segment split at its first `=`).  URLs outside this fragment
are treated as unparseable, which `normalizeUrl`'s `catch` branch returns
unchanged. -/

inductive UrlScheme
  | http
  | https
deriving DecidableEq, Repr

/-- The characters of the scheme name. -/
def UrlScheme.chars : UrlScheme → List Char
  | .http => ['h', 't', 't', 'p']
  | .https => ['h', 't', 't', 'p', 's']

/-- The `://` separator between scheme and host. -/
def schemeSep : List Char := [':', '/', '/']

/-- A parsed URL: scheme, host (including any port), pathname (always
beginning with `/`), query entries in order, and the fragment (`none` when
the URL has no `#`, mirroring a null fragment). -/
structure UrlRec where
  scheme : UrlScheme
  host : List Char
  pathname : List Char
  search : List (List Char × List Char)
  hash : Option (List Char)
deriving DecidableEq, Repr

/-- Parses a query string the way `URLSearchParams` does on literal input:
split on `&`, skip empty segments, split each segment at its first `=`
(a segment without `=` gets the empty value). -/
def parseQueryChars (q : List Char) : List (List Char × List Char) :=
  ((splitOnChar '&' q).filter (fun seg => seg ≠ [])).map (fun seg =>
    let r := splitFirstChar '=' seg
    (r.1, r.2.getD []))

/-- Recognises and strips the `http://` or `https://` scheme prefix. -/
def dropScheme? (l : List Char) : Option (UrlScheme × List Char) :=
  match dropStart? (UrlScheme.http.chars ++ schemeSep) l with
  | some r => some (.http, r)
  | none =>
    match dropStart? (UrlScheme.https.chars ++ schemeSep) l with
    | some r => some (.https, r)
    | none => none

/-- Parses an absolute URL in the modelled fragment (see the section
comment).  Returns `none` for anything else, which the `normalizeUrl`
model treats as the `catch` branch. -/
def parseUrlChars (l : List Char) : Option UrlRec :=
  let h := splitFirstChar '#' l
  let q := splitFirstChar '?' h.1
  match dropScheme? q.1 with
  | none => none
  | some (sch, rest) =>
    let hp := splitFirstChar '/' rest
    if hp.1 = [] then none
    else
      some {
        scheme := sch
        host := hp.1
        pathname := '/' :: hp.2.getD []
        search := match q.2 with
          | none => []
          | some qs => parseQueryChars qs
        hash := h.2 }

/-- Serialises query entries the way `URLSearchParams.toString` does on the
modelled literal fragment: `name=value` pairs joined by `&`. -/
def serializeQueryChars : List (List Char × List Char) → List Char
  | [] => []
  | [(n, v)] => n ++ '=' :: v
  | (n, v) :: rest => n ++ '=' :: v ++ '&' :: serializeQueryChars rest

/-- Serialises a `UrlRec` back to its `href` string.  An empty query
serialises without `?` and a `none` fragment without `#`, matching the
`URL` setters used by `normalizeUrl` (assigning `hash = ''` and
`search = ''` removes the respective component). -/
def hrefChars (u : UrlRec) : List Char :=
  u.scheme.chars ++ schemeSep ++ u.host ++ u.pathname
    ++ (match u.search with
        | [] => []
        | _ => '?' :: serializeQueryChars u.search)
    ++ (match u.hash with
        | none => []
        | some hs => '#' :: hs)

/-! ## `LinkExtractor.normalizeUrl` and `deduplicateLinks`
(crawling-service.ts lines 876-886 and 989-1018) -/

/-- The trailing-slash removal of `normalizeUrl`: if the pathname is longer
than one character and ends with `/`, drop that final character (one
`slice(0, -1)`), otherwise leave it unchanged. -/
def stripTrailingSlash (p : List Char) : List Char :=
  if 1 < p.length ∧ p.getLast? = some '/' then p.dropLast else p

/-- The query-parameter sorting of `normalizeUrl`: collect the parameter
names in entry order (`URLSearchParams.keys()` yields one name per entry,
so a repeated name appears with its multiplicity), sort them, and for each
name occurrence append all values of that name (`getAll`). -/
def sortQueryEntries (q : List (List Char × List Char)) :
    List (List Char × List Char) :=
  (List.insertionSort (fun a b => a ≤ b) (q.map Prod.fst)).flatMap
    (fun n => q.filter (fun e => e.1 == n))

/-- The record-level normalisation performed by `normalizeUrl`: remove the
fragment, strip one trailing slash from a non-root pathname, and sort query
parameters. -/
def normalizeUrlRec (u : UrlRec) : UrlRec :=
  { u with
    hash := none
    pathname := stripTrailingSlash u.pathname
    search := sortQueryEntries u.search }

/-- `LinkExtractor.normalizeUrl`: parse the URL; on failure return the
input unchanged (the `catch` branch); otherwise normalise and serialise. -/
def normalizeUrl (s : String) : String :=
  match parseUrlChars s.data with
  | none => s
  | some u => String.mk (hrefChars (normalizeUrlRec u))

/-- First-occurrence deduplication, the behaviour of
`[...new Set(list)]`. -/
def insertionDedup (l : List String) : List String :=
  l.foldl (fun acc x => if x ∈ acc then acc else acc ++ [x]) []

/-- `LinkExtractor.deduplicateLinks`: normalise every link, then keep the
first occurrence of each normalised string. -/
def deduplicateLinks (links : List String) : List String :=
  insertionDedup (links.map normalizeUrl)

/-- Well-formedness of query entries for serialise/parse round-tripping:
no `&` or `#` anywhere, and no `=` inside a name. -/
def QueryWF (q : List (List Char × List Char)) : Prop :=
  ∀ e ∈ q, '&' ∉ e.1 ∧ '&' ∉ e.2 ∧ '=' ∉ e.1 ∧ '#' ∉ e.1 ∧ '#' ∉ e.2

/-- Well-formedness of a parsed URL record: exactly the shape guaranteed
by `parseUrlChars`, and sufficient for `hrefChars` to parse back to the
same record. -/
def UrlWF (u : UrlRec) : Prop :=
  u.host ≠ [] ∧ '/' ∉ u.host ∧ '?' ∉ u.host ∧ '#' ∉ u.host
    ∧ (∃ p, u.pathname = '/' :: p) ∧ '?' ∉ u.pathname ∧ '#' ∉ u.pathname
    ∧ QueryWF u.search

/-- The inputs on which `normalizeUrl` is idempotent: parse failures, and
parses whose pathname does not end in a double slash and whose query has
no repeated parameter name. -/
def NormalizeStable (s : String) : Prop :=
  ∀ u, parseUrlChars s.data = some u →
    ¬ List.IsSuffix ['/', '/'] u.pathname ∧ (u.search.map Prod.fst).Nodup

/-! ## Progress tracker (progress-tracker.ts)

One `ProgressTracker` per running job.  The snapshot is `CrawlProgress`;
each public method is a function from snapshot to snapshot together with
the `Date.now()` reading `now`.  The `warnings` array (never written),
the stdout throttling fields and the listener/stdout/Redis emission in
`emitUpdate` are I/O and are not modelled. -/

/-- JavaScript's `Math.round`: round half up. -/
def jsRound (q : ℚ) : Int := Int.floor (q + 1 / 2)

inductive TrackerStatus
  | starting
  | crawling
  | paused
  | completed
  | failed
  | cancelled
deriving DecidableEq, Repr

inductive TrackerPhase
  | discovering
  | processing
  | finishing
deriving DecidableEq, Repr

/-- An entry of the snapshot's error list (interface `ProgressError`). -/
structure ProgressError where
  url : String
  error : String
  timestamp : Nat
  depth : Nat
deriving DecidableEq, Repr

/-- The tracker's construction options (interface
`ProgressTrackerOptions`); the stdout fields are I/O and omitted. -/
structure ProgressTrackerOptions where
  jobId : String
  startUrl : String
  maxPages : Nat
  maxDepth : Nat
  useSmartEstimation : Bool
  minPagesForEstimation : Nat
deriving DecidableEq, Repr

/-- The mutable progress snapshot (interface `CrawlProgress` of
progress-tracker.ts).  Times are epoch milliseconds.
`estimatedTimeRemaining` is `none` for the initial `null`. -/
structure CrawlProgress where
  jobId : String
  startUrl : String
  startTime : Nat
  currentTime : Nat
  totalPagesDiscovered : Nat
  pagesProcessed : Nat
  pagesSuccessful : Nat
  pagesFailed : Nat
  currentUrl : Option String
  currentDepth : Nat
  currentPageNumber : Nat
  progressPercentage : Nat
  estimatedTimeRemaining : Option Int
  pagesPerMinute : Nat
  urlsInQueue : Nat
  maxDepth : Nat
  maxPages : Nat
  status : TrackerStatus
  phase : TrackerPhase
  errors : List ProgressError
deriving DecidableEq, Repr

/-- `ProgressTracker.initializeProgress` (lines 93-127). -/
def initializeProgress (o : ProgressTrackerOptions) (now : Nat) :
    CrawlProgress :=
  { jobId := o.jobId
    startUrl := o.startUrl
    startTime := now
    currentTime := now
    totalPagesDiscovered := 1
    pagesProcessed := 0
    pagesSuccessful := 0
    pagesFailed := 0
    currentUrl := none
    currentDepth := 0
    currentPageNumber := 0
    progressPercentage := 0
    estimatedTimeRemaining := none
    pagesPerMinute := 0
    urlsInQueue := 1
    maxDepth := o.maxDepth
    maxPages := o.maxPages
    status := .starting
    phase := .discovering
    errors := [] }

/-- `ProgressTracker.calculateProgress` (lines 230-265): percentage is
`min(round(processed / maxPages * 100), 100)`; pages-per-minute is
`round(processed / elapsedMinutes)` but only recomputed when the elapsed
time is positive; the ETA is recomputed (in milliseconds) only when smart
estimation is on, at least `minPagesForEstimation` pages are processed and
the pages-per-minute figure is positive; the phase is derived last. -/
def calculateProgress (o : ProgressTrackerOptions) (p : CrawlProgress) :
    CrawlProgress :=
  let pct : Nat :=
    min (jsRound ((p.pagesProcessed : ℚ) / (p.maxPages : ℚ) * 100)).toNat 100
  let elapsedMinutes : ℚ :=
    (((p.currentTime : Int) - (p.startTime : Int) : Int) : ℚ) / (1000 * 60)
  let ppm : Nat :=
    if 0 < elapsedMinutes then
      (jsRound ((p.pagesProcessed : ℚ) / elapsedMinutes)).toNat
    else p.pagesPerMinute
  let eta : Option Int :=
    if o.useSmartEstimation ∧ o.minPagesForEstimation ≤ p.pagesProcessed ∧
        0 < ppm then
      let remainingPages : Int := (p.maxPages : Int) - (p.pagesProcessed : Int)
      let estimatedMinutes : ℚ := (remainingPages : ℚ) / (ppm : ℚ)
      some (jsRound (estimatedMinutes * 60 * 1000))
    else p.estimatedTimeRemaining
  let ph : TrackerPhase :=
    if 95 ≤ pct then .finishing
    else if p.urlsInQueue = 0 ∧ 0 < p.pagesProcessed then .finishing
    else if 0 < p.pagesProcessed then .processing
    else .discovering
  { p with
    progressPercentage := pct
    pagesPerMinute := ppm
    estimatedTimeRemaining := eta
    phase := ph }

/-- `ProgressTracker.startProcessingPage` (lines 132-148). -/
def startProcessingPage (o : ProgressTrackerOptions) (p : CrawlProgress)
    (url : String) (depth : Nat) (now : Nat) : CrawlProgress :=
  calculateProgress o
    { p with
      currentUrl := some url
      currentDepth := depth
      currentPageNumber := p.currentPageNumber + 1
      currentTime := now
      status := .crawling
      phase := .processing }

/-- `ProgressTracker.pageCompleted` (lines 153-171). -/
def pageCompleted (o : ProgressTrackerOptions) (p : CrawlProgress)
    (url : String) (linksFound : Nat) (now : Nat) : CrawlProgress :=
  let p1 :=
    { p with
      pagesProcessed := p.pagesProcessed + 1
      pagesSuccessful := p.pagesSuccessful + 1
      currentTime := now }
  let p2 :=
    if 0 < linksFound then
      { p1 with
        totalPagesDiscovered := p1.totalPagesDiscovered + linksFound
        urlsInQueue := p1.urlsInQueue + linksFound }
    else p1
  calculateProgress o p2

/-- `ProgressTracker.pageFailed` (lines 176-198): counts the failure and
appends a `ProgressError` carrying the snapshot's current depth. -/
def pageFailed (o : ProgressTrackerOptions) (p : CrawlProgress)
    (url : String) (error : String) (now : Nat) : CrawlProgress :=
  calculateProgress o
    { p with
      pagesProcessed := p.pagesProcessed + 1
      pagesFailed := p.pagesFailed + 1
      currentTime := now
      errors := p.errors ++ [⟨url, error, now, p.currentDepth⟩] }

/-- `ProgressTracker.urlsDiscovered` (lines 203-216).  Note that it does
not invoke `calculateProgress`. -/
def urlsDiscovered (p : CrawlProgress) (urls : List String) (depth : Nat)
    (now : Nat) : CrawlProgress :=
  let _ := depth
  { p with
    totalPagesDiscovered := p.totalPagesDiscovered + urls.length
    urlsInQueue := p.urlsInQueue + urls.length
    currentTime := now }

/-- `ProgressTracker.updateQueueStatus` (lines 221-225). -/
def updateQueueStatus (o : ProgressTrackerOptions) (p : CrawlProgress)
    (urlsInQueue : Nat) (now : Nat) : CrawlProgress :=
  calculateProgress o { p with urlsInQueue := urlsInQueue, currentTime := now }

/-- `ProgressTracker.markCompleted` (lines 270-285): forces the percentage
to 100 without consulting `calculateProgress`. -/
def markCompleted (p : CrawlProgress) (now : Nat) : CrawlProgress :=
  { p with
    status := .completed
    phase := .finishing
    currentTime := now
    progressPercentage := 100 }

/-- `ProgressTracker.markFailed` (lines 290-303): the reason appears only
in the emitted message, not in the snapshot. -/
def markFailed (p : CrawlProgress) (reason : String) (now : Nat) :
    CrawlProgress :=
  let _ := reason
  { p with status := .failed, currentTime := now }

/-- The tracker's public mutating events, for reasoning about arbitrary
event sequences. -/
inductive TrackerEvent
  | startPage (url : String) (depth now : Nat)
  | pageDone (url : String) (linksFound now : Nat)
  | pageFail (url error : String) (now : Nat)
  | discovered (urls : List String) (depth now : Nat)
  | queue (urlsInQueue now : Nat)
  | markDone (now : Nat)
  | markFail (reason : String) (now : Nat)
deriving DecidableEq, Repr

/-- Dispatches one tracker event to the corresponding method. -/
def applyEvent (o : ProgressTrackerOptions) (p : CrawlProgress) :
    TrackerEvent → CrawlProgress
  | .startPage url depth now => startProcessingPage o p url depth now
  | .pageDone url linksFound now => pageCompleted o p url linksFound now
  | .pageFail url error now => pageFailed o p url error now
  | .discovered urls depth now => urlsDiscovered p urls depth now
  | .queue n now => updateQueueStatus o p n now
  | .markDone now => markCompleted p now
  | .markFail reason now => markFailed p reason now

/-- Runs a sequence of tracker events from a snapshot. -/
def runEvents (o : ProgressTrackerOptions) (p : CrawlProgress)
    (evs : List TrackerEvent) : CrawlProgress :=
  evs.foldl (applyEvent o) p

/-! ## Crawl engine (`CrawlingService.crawlMultiPage`, crawling-service.ts)

The BFS loop of lines 156-314 with its surrounding initialisation and
finalisation.  Each loop iteration is `crawlStep`, which returns `none`
exactly when the `while` condition fails.  Database effects are fields of
`CrawlState` (`dbStatus` etc. mirror the `jobs` row written by
`updateJobStatus`/`updateJobProgress`; `persisted` mirrors the `pages`
rows written by `storePageResult`).  The politeness delay only spends
time, so it does not appear in the state.  `trackerRegistered` models
membership of `activeTrackers`, which only `cancelCrawlJob` consults;
the loop keeps its direct reference to the tracker, so tracker methods
are applied unconditionally, as in the source. -/

inductive JobStatus
  | pending
  | processing
  | completed
  | failed
  | cancelled
deriving DecidableEq, Repr

/-- A frontier entry of the `toCrawl` queue. -/
structure FrontierEntry where
  url : String
  depth : Nat
deriving DecidableEq, Repr

/-- An entry of the in-memory `results` array (interface `PageResult`;
wall-clock timestamps and the content payload are not modelled). -/
structure PageResult where
  url : String
  depth : Nat
  pageNumber : Nat
  success : Bool
  error : Option String
  linksFound : Nat
deriving DecidableEq, Repr

/-- A `pages` row written by `storePageResult` (lines 459-491; content,
metadata and timing payloads are not modelled).  A successful scrape
stores status code 200, a failure stores 0 with the error message. -/
structure StoredPage where
  url : String
  depth : Nat
  statusCode : Nat
  linksFound : Nat
  errorMessage : Option String
deriving DecidableEq, Repr

/-- The crawl options after defaulting (lines 79-98), restricted to the
fields the loop consults. -/
structure CrawlOpts where
  maxDepth : Nat
  maxPages : Nat
deriving DecidableEq, Repr

/-- JavaScript `x || d` defaulting on an optional number: `undefined` and
`0` are falsy. -/
def jsOrNat (v : Option Nat) (d : Nat) : Nat :=
  match v with
  | none => d
  | some n => if n = 0 then d else n

/-- The caller-supplied crawl options relevant to the loop. -/
structure CrawlOptionsIn where
  maxDepth : Option Nat
  maxPages : Option Nat
deriving DecidableEq, Repr

/-- The defaulting of lines 80-81: `maxDepth: options.maxDepth || 2`,
`maxPages: options.maxPages || 10`. -/
def resolveCrawlOpts (o : CrawlOptionsIn) : CrawlOpts :=
  { maxDepth := jsOrNat o.maxDepth 2
    maxPages := jsOrNat o.maxPages 10 }

/-- The outcome of one page attempt: the composite of
`scrapingService.scrapePage` and `extractAndFilterLinks` either yields the
filtered discovered links, or throws (navigation failure, timeout, or
browser-pool exhaustion) with an error message.  This composite is an
external collaborator of the loop, supplied as an oracle per run. -/
inductive FetchResult
  | ok (links : List String)
  | failure (msg : String)
deriving DecidableEq, Repr

/-- The whole observable state of one `crawlMultiPage` run: the loop's
local variables, the tracker snapshot, and the database rows it writes. -/
structure CrawlState where
  jobId : String
  crawled : List String
  toCrawl : List FrontierEntry
  results : List PageResult
  failedUrls : List String
  maxDepthReached : Nat
  domainsVisited : List String
  totalLinksDiscovered : Nat
  tracker : CrawlProgress
  trackerRegistered : Bool
  persisted : List StoredPage
  dbStatus : JobStatus
  dbProgress : Nat
  dbCurrentUrl : Option String
  dbPagesCrawled : Nat
  dbError : Option String
deriving DecidableEq, Repr

/-- Guarded append modelling `Set.add` on a `Set<string>` kept as a
duplicate-free list. -/
def addToSet (l : List String) (x : String) : List String :=
  if x ∈ l then l else l ++ [x]

/-- `new URL(url).hostname` via the URL model: the host up to any `:`
port separator; `none` models the `catch` branch of the domain-tracking
`try` (lines 168-172). -/
def hostnameOf (url : String) : Option String :=
  match parseUrlChars url.data with
  | none => none
  | some u => some (String.mk (splitFirstChar ':' u.host).1)

/-- The tracker options built at lines 109-119: smart estimation on,
minimum three pages for estimation. -/
def trackerOptionsOf (jobId startUrl : String) (opts : CrawlOpts) :
    ProgressTrackerOptions :=
  { jobId := jobId
    startUrl := startUrl
    maxPages := opts.maxPages
    maxDepth := opts.maxDepth
    useSmartEstimation := true
    minPagesForEstimation := 3 }

/-- One step of the link-enqueueing loop of lines 228-233: insert the link
at `depth + 1` only when it is in neither the visited set nor the current
frontier (including entries added earlier in the same pass). -/
def enqueueStep (crawled : List String) (depth : Nat)
    (acc : List FrontierEntry × List String) (link : String) :
    List FrontierEntry × List String :=
  if link ∈ crawled ∨ acc.1.any (fun item => item.url == link) then acc
  else (acc.1 ++ [⟨link, depth + 1⟩], acc.2 ++ [link])

/-- Lines 226-234: discovered links are enqueued at `depth + 1` only when
`depth < maxDepth`; returns the grown frontier and the `newUrls` list. -/
def enqueueLinks (crawled : List String) (depth maxDepth : Nat)
    (links : List String) (frontier : List FrontierEntry) :
    List FrontierEntry × List String :=
  if depth < maxDepth then links.foldl (enqueueStep crawled depth) (frontier, [])
  else (frontier, [])

/-- The body of one processed page (lines 164-308), after the pop and the
visited/depth guard: mark visited, record the depth and domain, notify the
tracker, write the legacy progress row, then attempt the page and record
either the success or the failure.  `rest` is the frontier after the pop. -/
def processPage (oracle : String → FetchResult) (opts : CrawlOpts)
    (now : Nat) (url : String) (depth : Nat) (rest : List FrontierEntry)
    (st : CrawlState) : CrawlState :=
  let topts := trackerOptionsOf st.tracker.jobId st.tracker.startUrl opts
  let crawled1 := addToSet st.crawled url
  let mdr := max st.maxDepthReached depth
  let domains1 :=
    match hostnameOf url with
    | some hn => addToSet st.domainsVisited hn
    | none => st.domainsVisited
  let tracker1 := startProcessingPage topts st.tracker url depth now
  let progress := (jsRound ((st.results.length : ℚ) / (opts.maxPages : ℚ) * 100)).toNat
  let pageNumber := st.results.length + 1
  match oracle url with
  | .ok links =>
    let eq1 := enqueueLinks crawled1 depth opts.maxDepth links rest
    let tracker2 := pageCompleted topts tracker1 url links.length now
    let tracker3 :=
      if eq1.2 ≠ [] then urlsDiscovered tracker2 eq1.2 (depth + 1) now
      else tracker2
    let tracker4 := updateQueueStatus topts tracker3 eq1.1.length now
    { st with
      crawled := crawled1
      toCrawl := eq1.1
      results := st.results ++ [⟨url, depth, pageNumber, true, none, links.length⟩]
      maxDepthReached := mdr
      domainsVisited := domains1
      totalLinksDiscovered := st.totalLinksDiscovered + links.length
      tracker := tracker4
      persisted := st.persisted ++ [⟨url, depth, 200, links.length, none⟩]
      dbProgress := progress
      dbCurrentUrl := some url
      dbPagesCrawled := st.results.length }
  | .failure msg =>
    let tracker2 := pageFailed topts tracker1 url msg now
    let tracker3 := updateQueueStatus topts tracker2 rest.length now
    { st with
      crawled := crawled1
      toCrawl := rest
      results := st.results ++ [⟨url, depth, pageNumber, false, some msg, 0⟩]
      failedUrls := st.failedUrls ++ [url]
      maxDepthReached := mdr
      domainsVisited := domains1
      tracker := tracker3
      persisted := st.persisted ++ [⟨url, depth, 0, 0, some msg⟩]
      dbProgress := progress
      dbCurrentUrl := some url
      dbPagesCrawled := st.results.length }

/-- One iteration of the `while` loop (lines 156-314): `none` exactly when
the loop condition `toCrawl.length > 0 && results.length < maxPages`
fails; otherwise pop the front entry and either skip it (already visited
or too deep, lines 160-162) or process it. -/
def crawlStep (oracle : String → FetchResult) (opts : CrawlOpts)
    (now : Nat) (st : CrawlState) : Option CrawlState :=
  match st.toCrawl with
  | [] => none
  | e :: rest =>
    if st.results.length < opts.maxPages then
      some
        (if e.url ∈ st.crawled ∨ opts.maxDepth < e.depth then
          { st with toCrawl := rest }
        else processPage oracle opts now e.url e.depth rest st)
    else none

/-- Runs up to `n` loop iterations; once the loop condition fails the
state is a fixed point. -/
def stepN (oracle : String → FetchResult) (opts : CrawlOpts) (now : Nat) :
    Nat → CrawlState → CrawlState
  | 0, st => st
  | n + 1, st =>
    match crawlStep oracle opts now st with
    | none => st
    | some st2 => stepN oracle opts now n st2

/-- The state after the initialisation of lines 106-154: tracker
registered in `activeTrackers`, frontier seeded with the start URL at
depth 0, and the job row updated to `processing` with progress 0. -/
def initCrawlState (jobId startUrl : String) (opts : CrawlOpts)
    (now : Nat) : CrawlState :=
  { jobId := jobId
    crawled := []
    toCrawl := [⟨startUrl, 0⟩]
    results := []
    failedUrls := []
    maxDepthReached := 0
    domainsVisited := []
    totalLinksDiscovered := 0
    tracker := initializeProgress (trackerOptionsOf jobId startUrl opts) now
    trackerRegistered := true
    persisted := []
    dbStatus := .processing
    dbProgress := 0
    dbCurrentUrl := none
    dbPagesCrawled := 0
    dbError := none }

/-- `CrawlingService.cancelCrawlJob` (lines 646-660): when the job's
tracker is registered, mark the tracker failed with reason
`Cancelled by user`, clean it up, deregister it, and update the job row to
`cancelled` with progress 0; returns whether a tracker was found.  The
loop's local variables are untouched. -/
def cancelCrawlJob (now : Nat) (st : CrawlState) : Bool × CrawlState :=
  if st.trackerRegistered then
    (true,
      { st with
        tracker := markFailed st.tracker "Cancelled by user" now
        trackerRegistered := false
        dbStatus := .cancelled
        dbProgress := 0
        dbError := some "Cancelled by user" })
  else (false, st)

/-- The normal-exit finalisation of lines 316-384: mark the tracker
completed, update the job row to `completed` with progress 100, and
(in the `finally` block) clean up and deregister the tracker. -/
def finalizeCrawl (st : CrawlState) (now : Nat) : CrawlState :=
  { st with
    tracker := markCompleted st.tracker now
    trackerRegistered := false
    dbStatus := .completed
    dbProgress := 100 }

/-! ## `JobManager.cancelJob` (job-manager.ts lines 282-308)

`cancelJob` fetches the job row, returns `false` when it is missing or has
status `completed`, otherwise removes the queued BullMQ job when present
(removal of a locked in-flight job throws, which the `catch` turns into
`false` with no status change) and updates the row to `cancelled`. -/

/-- The queue-side circumstances `cancelJob` runs under. -/
structure QueueCancelEnv where
  jobInQueue : Bool
  removeThrows : Bool
deriving DecidableEq, Repr

/-- `JobManager.cancelJob`: returns the reported success and the job row's
resulting status. -/
def managerCancelJob (env : QueueCancelEnv) (dbStatus : Option JobStatus) :
    Bool × Option JobStatus :=
  match dbStatus with
  | none => (false, none)
  | some s =>
    if s = .completed then (false, some s)
    else if env.jobInQueue && env.removeThrows then (false, some s)
    else (true, some .cancelled)

/-! ## Browser resource pool (`BrowserManager`, scraping-service.ts)

The pool keyed by generated browser ids; ids are modelled by a counter.
Playwright launch/close calls are I/O; `createBrowser`'s failure path
(launch throwing) is not modelled — the pool-policy claims concern the
success path and the exhaustion error. -/

/-- A pool entry (interface `BrowserInstance`; the session handles are
opaque). -/
structure BrowserInstance where
  id : Nat
  inUse : Bool
  createdAt : Nat
  lastUsed : Nat
deriving DecidableEq, Repr

/-- The `BrowserManager` state: the keyed instance map in insertion order,
the configured maximum, and the id counter. -/
structure BrowserManagerState where
  instances : List BrowserInstance
  maxInstances : Nat
  nextId : Nat
deriving DecidableEq, Repr

/-- The 30-minute idle age threshold of `cleanupOldInstances`. -/
def browserMaxAgeMs : Nat := 30 * 60 * 1000

/-- `BrowserManager.cleanupOldInstances` (lines 538-550): close instances
that are idle and older than the threshold. -/
def cleanupOldInstances (now : Nat) (st : BrowserManagerState) :
    BrowserManagerState :=
  { st with
    instances := st.instances.filter
      (fun i => !(!i.inUse && browserMaxAgeMs < now - i.lastUsed)) }

/-- `BrowserManager.createBrowser` (lines 385-432, success path): append a
fresh idle instance and return its id. -/
def createBrowser (now : Nat) (st : BrowserManagerState) :
    Nat × BrowserManagerState :=
  (st.nextId,
    { st with
      instances := st.instances ++ [⟨st.nextId, false, now, now⟩]
      nextId := st.nextId + 1 })

/-- The reuse scan of `getBrowser` (lines 439-447): return the first idle
instance, marked busy with its last-used time refreshed. -/
def reuseFirstIdle (now : Nat) :
    List BrowserInstance → Option (Nat × List BrowserInstance)
  | [] => none
  | i :: rest =>
    if !i.inUse then some (i.id, { i with inUse := true, lastUsed := now } :: rest)
    else (reuseFirstIdle now rest).map (fun r => (r.1, i :: r.2))

/-- The conditional pruning at the top of `getBrowser` (lines 435-437):
prune old idle instances when the pool is at or above capacity. -/
def getBrowserScan (now : Nat) (st : BrowserManagerState) :
    BrowserManagerState :=
  if st.maxInstances ≤ st.instances.length then cleanupOldInstances now st
  else st

/-- `BrowserManager.getBrowser` (lines 434-458): when the pool is at or
above capacity, first prune old idle instances; then reuse the first idle
instance; otherwise create a new one when under `maxInstances`; otherwise
fail with the exhaustion error. -/
def getBrowser (now : Nat) (st : BrowserManagerState) :
    BrowserManagerState × Except String Nat :=
  let st1 := getBrowserScan now st
  match reuseFirstIdle now st1.instances with
  | some r => ({ st1 with instances := r.2 }, .ok r.1)
  | none =>
    if st1.instances.length < st.maxInstances then
      let c := createBrowser now st1
      ({ c.2 with
          instances := c.2.instances.map
            (fun i => if i.id = c.1 then { i with inUse := true } else i) },
        .ok c.1)
    else
      (st1, .error "No available browser instances and maximum limit reached")

/-- `BrowserManager.releaseBrowser` (lines 505-512). -/
def releaseBrowser (now : Nat) (browserId : Nat)
    (st : BrowserManagerState) : BrowserManagerState :=
  { st with
    instances := st.instances.map
      (fun i => if i.id = browserId then { i with inUse := false, lastUsed := now } else i) }

/-- `BrowserManager.closeBrowser` (lines 514-525). -/
def closeBrowser (browserId : Nat) (st : BrowserManagerState) :
    BrowserManagerState :=
  { st with instances := st.instances.filter (fun i => i.id ≠ browserId) }

/-- The number of instances currently marked busy (`getStats().inUse`). -/
def inUseCount (st : BrowserManagerState) : Nat :=
  (st.instances.filter (fun i => i.inUse)).length

/-! ## Derived notions used by the theorems -/

/-- The state of an entire run of the crawl loop: `n` iterations from the
initialised state. -/
def crawlRun (oracle : String → FetchResult) (opts : CrawlOpts)
    (jobId startUrl : String) (t0 now n : Nat) : CrawlState :=
  stepN oracle opts now n (initCrawlState jobId startUrl opts t0)

/-- The loop invariant of `crawlMultiPage` relating the visited set, the
frontier, the results array, and the persisted pages. -/
structure CrawlInv (opts : CrawlOpts) (st : CrawlState) : Prop where
  crawledNodup : st.crawled.Nodup
  frontierNodup : (st.toCrawl.map FrontierEntry.url).Nodup
  frontierFresh : ∀ u ∈ st.toCrawl.map FrontierEntry.url, u ∉ st.crawled
  frontierDepth : ∀ e ∈ st.toCrawl, e.depth ≤ opts.maxDepth
  resultsBudget : st.results.length ≤ opts.maxPages
  resultsNodup : (st.results.map PageResult.url).Nodup
  resultsCrawled : ∀ u ∈ st.results.map PageResult.url, u ∈ st.crawled
  resultsDepth : ∀ r ∈ st.results, r.depth ≤ opts.maxDepth
  persistedNodup : (st.persisted.map StoredPage.url).Nodup
  persistedCrawled : ∀ u ∈ st.persisted.map StoredPage.url, u ∈ st.crawled
  persistedDepth : ∀ p ∈ st.persisted, p.depth ≤ opts.maxDepth

/-- Modelled from the spec: the derived-metric formulas of the progress
tracker (spec §4.4), adjusted to the code's rounding and update
conditions; `old` is the snapshot before the event and `new` after it. -/
def DerivedMetricsSpec (o : ProgressTrackerOptions)
    (old new : CrawlProgress) : Prop :=
  new.progressPercentage =
      min (jsRound ((new.pagesProcessed : ℚ) / (new.maxPages : ℚ) * 100)).toNat 100
    ∧ new.pagesPerMinute =
      (if 0 < (((new.currentTime : Int) - (new.startTime : Int) : Int) : ℚ) / (1000 * 60) then
        (jsRound ((new.pagesProcessed : ℚ) /
          ((((new.currentTime : Int) - (new.startTime : Int) : Int) : ℚ) / (1000 * 60)))).toNat
      else old.pagesPerMinute)
    ∧ new.estimatedTimeRemaining =
      (if o.useSmartEstimation ∧ o.minPagesForEstimation ≤ new.pagesProcessed ∧
          0 < new.pagesPerMinute then
        some (jsRound (((((new.maxPages : Int) - (new.pagesProcessed : Int) : Int) : ℚ) /
          (new.pagesPerMinute : ℚ)) * 60 * 1000))
      else old.estimatedTimeRemaining)

/-! ## Concrete inputs used by the witnesses and counterexamples -/

/-- A page-fetch oracle where the start page links to three pages that in
turn link nowhere. -/
def demoLinksOracle : String → FetchResult := fun url =>
  if url = "http://site.test/" then
    .ok ["http://site.test/b", "http://site.test/c", "http://site.test/d"]
  else .ok []

/-- A page-fetch oracle where the start page links to two pages and the
first of them fails with a navigation timeout. -/
def demoFailOracle : String → FetchResult := fun url =>
  if url = "http://site.test/" then
    .ok ["http://site.test/b", "http://site.test/c"]
  else if url = "http://site.test/b" then
    .failure "Navigation timeout of 3000 ms exceeded"
  else .ok []

/-- The state of the cancellation scenario right after `cancelCrawlJob` is
invoked: one page processed out of a four-page site, then cancellation. -/
def demoCancelMid : CrawlState :=
  (cancelCrawlJob 0
    (crawlRun demoLinksOracle ⟨1, 5⟩ "job-1" "http://site.test/" 0 0 1)).2

/-- The cancellation scenario run to completion: the loop (which reads no
cancellation flag) keeps going after the cancellation and the run is then
finalised normally. -/
def demoCancelFinal : CrawlState :=
  finalizeCrawl (stepN demoLinksOracle ⟨1, 5⟩ 0 9 demoCancelMid) 0

/-! # Theorems -/

/-! ## Progress tracker counters -/

theorem calculateProgress_pagesProcessed (o : ProgressTrackerOptions)
    (p : CrawlProgress) :
    (calculateProgress o p).pagesProcessed = p.pagesProcessed := rfl

theorem calculateProgress_pagesSuccessful (o : ProgressTrackerOptions)
    (p : CrawlProgress) :
    (calculateProgress o p).pagesSuccessful = p.pagesSuccessful := rfl

theorem calculateProgress_pagesFailed (o : ProgressTrackerOptions)
    (p : CrawlProgress) :
    (calculateProgress o p).pagesFailed = p.pagesFailed := rfl

theorem calculateProgress_errors (o : ProgressTrackerOptions)
    (p : CrawlProgress) :
    (calculateProgress o p).errors = p.errors := rfl

/-- The effect of `pageCompleted` on the snapshot's counters. -/
theorem pageCompleted_counts (o : ProgressTrackerOptions)
    (p : CrawlProgress) (url : String) (linksFound now : Nat) :
    (pageCompleted o p url linksFound now).pagesProcessed = p.pagesProcessed + 1
      ∧ (pageCompleted o p url linksFound now).pagesSuccessful = p.pagesSuccessful + 1
      ∧ (pageCompleted o p url linksFound now).pagesFailed = p.pagesFailed
      ∧ (pageCompleted o p url linksFound now).errors = p.errors := by
  unfold pageCompleted
  split <;> exact ⟨rfl, rfl, rfl, rfl⟩

/-- Each tracker event preserves the counter consistency of the
snapshot. -/
theorem applyEvent_counts (o : ProgressTrackerOptions) (p : CrawlProgress)
    (e : TrackerEvent)
    (h1 : p.pagesProcessed = p.pagesSuccessful + p.pagesFailed)
    (h2 : p.errors.length = p.pagesFailed) :
    (applyEvent o p e).pagesProcessed =
        (applyEvent o p e).pagesSuccessful + (applyEvent o p e).pagesFailed
      ∧ (applyEvent o p e).errors.length = (applyEvent o p e).pagesFailed := by
  cases e with
  | pageDone url linksFound now =>
    have h := pageCompleted_counts o p url linksFound now
    constructor
    · rw [applyEvent, h.1, h.2.1, h.2.2.1]; omega
    · rw [applyEvent, h.2.2.2, h.2.2.1]; exact h2
  | _ =>
    constructor <;>
      simp [applyEvent, startProcessingPage, pageFailed, urlsDiscovered,
        updateQueueStatus, markCompleted, markFailed,
        calculateProgress_pagesProcessed, calculateProgress_pagesSuccessful,
        calculateProgress_pagesFailed, calculateProgress_errors, h1, h2] <;>
      omega

/-- Counter consistency is preserved along any event sequence. -/
theorem runEvents_counts (o : ProgressTrackerOptions)
    (evs : List TrackerEvent) :
    ∀ p : CrawlProgress,
      p.pagesProcessed = p.pagesSuccessful + p.pagesFailed →
      p.errors.length = p.pagesFailed →
      (runEvents o p evs).pagesProcessed =
          (runEvents o p evs).pagesSuccessful + (runEvents o p evs).pagesFailed
        ∧ (runEvents o p evs).errors.length = (runEvents o p evs).pagesFailed := by
  induction evs with
  | nil => intro p h1 h2; exact ⟨h1, h2⟩
  | cons e rest ih =>
    intro p h1 h2
    have h := applyEvent_counts o p e h1 h2
    exact ih (applyEvent o p e) h.1 h.2

/-- C10: in every state of a tracker reachable from initialisation by any
sequence of its events, `pagesProcessed = pagesSuccessful + pagesFailed`,
and the error list has exactly `pagesFailed` entries. -/
theorem tracker_counters_consistent (o : ProgressTrackerOptions)
    (now : Nat) (evs : List TrackerEvent) :
    (runEvents o (initializeProgress o now) evs).pagesProcessed =
        (runEvents o (initializeProgress o now) evs).pagesSuccessful +
          (runEvents o (initializeProgress o now) evs).pagesFailed
      ∧ (runEvents o (initializeProgress o now) evs).errors.length =
        (runEvents o (initializeProgress o now) evs).pagesFailed :=
  runEvents_counts o evs (initializeProgress o now) rfl rfl

/-! ## Progress tracker derived metrics (claim C8) -/

/-- C8 counterexample: after the tracker event `markCompleted` the
snapshot's percentage is forced to 100 and does not equal
`min(100, round(pagesProcessed / maxPages * 100))` (which is 0 for a fresh
tracker with `maxPages = 10`); the tracker's `pagesPerMinute` is also a
rounded integer, so the claimed exact-division equalities fail. -/
theorem tracker_metrics_counterexample :
    (markCompleted (initializeProgress ⟨"job-1", "http://site.test/", 10, 2, true, 3⟩ 0) 0).progressPercentage = 100
      ∧ min (jsRound (((markCompleted (initializeProgress ⟨"job-1", "http://site.test/", 10, 2, true, 3⟩ 0) 0).pagesProcessed : ℚ) /
          ((markCompleted (initializeProgress ⟨"job-1", "http://site.test/", 10, 2, true, 3⟩ 0) 0).maxPages : ℚ) * 100)).toNat 100 = 0 := by
  refine ⟨rfl, ?_⟩
  have hp : (markCompleted (initializeProgress ⟨"job-1", "http://site.test/", 10, 2, true, 3⟩ 0) 0).pagesProcessed = 0 := rfl
  have hm : (markCompleted (initializeProgress ⟨"job-1", "http://site.test/", 10, 2, true, 3⟩ 0) 0).maxPages = 10 := rfl
  rw [hp, hm]
  norm_num [jsRound]

/-- C8 (amended): after each tracker event that invokes
`calculateProgress` (`startProcessingPage`, `pageCompleted`, `pageFailed`,
`updateQueueStatus`), the snapshot's derived metrics satisfy:
`progressPercentage = min(round(processed/maxPages*100), 100)`;
`pagesPerMinute = round(processed / elapsedMinutes)` whenever elapsed time
is positive (otherwise it keeps its previous value); and
`estimatedTimeRemaining` is recomputed, as
`round((maxPages - processed) / pagesPerMinute minutes)` in milliseconds,
exactly when smart estimation is enabled, `processed` has reached
`minPagesForEstimation`, and `pagesPerMinute` is positive (otherwise it
keeps its previous value).  `markCompleted` instead forces the percentage
to 100, and `urlsDiscovered` recomputes nothing. -/
theorem tracker_derived_metrics (o : ProgressTrackerOptions)
    (p : CrawlProgress) (url error : String)
    (depth linksFound queueSize now : Nat) (urls : List String) :
    DerivedMetricsSpec o p (startProcessingPage o p url depth now)
      ∧ DerivedMetricsSpec o p (pageCompleted o p url linksFound now)
      ∧ DerivedMetricsSpec o p (pageFailed o p url error now)
      ∧ DerivedMetricsSpec o p (updateQueueStatus o p queueSize now)
      ∧ (markCompleted p now).progressPercentage = 100
      ∧ (urlsDiscovered p urls depth now).progressPercentage =
          p.progressPercentage
      ∧ (urlsDiscovered p urls depth now).pagesPerMinute = p.pagesPerMinute
      ∧ (urlsDiscovered p urls depth now).estimatedTimeRemaining =
          p.estimatedTimeRemaining := by
  refine ⟨⟨rfl, rfl, rfl⟩, ?_, ⟨rfl, rfl, rfl⟩, ⟨rfl, rfl, rfl⟩, rfl, rfl, rfl, rfl⟩
  unfold DerivedMetricsSpec pageCompleted
  split <;> exact ⟨rfl, rfl, rfl⟩

/-! ## Crawl loop invariants -/

theorem addToSet_eq_append {l : List String} {x : String} (h : x ∉ l) :
    addToSet l x = l ++ [x] := by
  simp [addToSet, h]

theorem nodup_append_one {α : Type} {l : List α} {x : α} (h : l.Nodup)
    (hx : x ∉ l) : (l ++ [x]).Nodup := by
  rw [← List.concat_eq_append]
  exact List.Nodup.concat hx h

theorem crawlStep_eq_nil (oracle : String → FetchResult) (opts : CrawlOpts)
    (now : Nat) (st : CrawlState) (h : st.toCrawl = []) :
    crawlStep oracle opts now st = none := by
  unfold crawlStep
  rw [h]

theorem crawlStep_eq_cons (oracle : String → FetchResult) (opts : CrawlOpts)
    (now : Nat) (st : CrawlState) (e : FrontierEntry)
    (rest : List FrontierEntry) (h : st.toCrawl = e :: rest) :
    crawlStep oracle opts now st =
      if st.results.length < opts.maxPages then
        some
          (if e.url ∈ st.crawled ∨ opts.maxDepth < e.depth then
            { st with toCrawl := rest }
          else processPage oracle opts now e.url e.depth rest st)
      else none := by
  unfold crawlStep
  rw [h]

theorem mem_addToSet {l : List String} {x y : String} :
    y ∈ addToSet l x ↔ y ∈ l ∨ y = x := by
  by_cases hx : x ∈ l
  · simp only [addToSet, if_pos hx]
    constructor
    · exact fun h => Or.inl h
    · rintro (h | rfl) <;> assumption
  · simp [addToSet, if_neg hx]

/-- The link-enqueueing fold keeps the frontier duplicate-free, disjoint
from the visited set, and within the depth bound. -/
theorem enqueueFold_pres (crawled : List String) (depth maxD : Nat)
    (hstep : depth + 1 ≤ maxD) (links : List String) :
    ∀ acc : List FrontierEntry × List String,
      (acc.1.map FrontierEntry.url).Nodup →
      (∀ u ∈ acc.1.map FrontierEntry.url, u ∉ crawled) →
      (∀ e ∈ acc.1, e.depth ≤ maxD) →
      (((links.foldl (enqueueStep crawled depth) acc).1.map FrontierEntry.url).Nodup
        ∧ (∀ u ∈ (links.foldl (enqueueStep crawled depth) acc).1.map FrontierEntry.url,
            u ∉ crawled)
        ∧ (∀ e ∈ (links.foldl (enqueueStep crawled depth) acc).1, e.depth ≤ maxD)) := by
  induction links with
  | nil => intro acc ha hb hc; exact ⟨ha, hb, hc⟩
  | cons link rest ih =>
    intro acc ha hb hc
    rw [List.foldl_cons]
    by_cases hg : link ∈ crawled ∨ acc.1.any (fun item => item.url == link)
    · rw [show enqueueStep crawled depth acc link = acc from if_pos hg]
      exact ih acc ha hb hc
    · rw [show enqueueStep crawled depth acc link =
        (acc.1 ++ [⟨link, depth + 1⟩], acc.2 ++ [link]) from if_neg hg]
      push_neg at hg
      have hnotin : link ∉ acc.1.map FrontierEntry.url := by
        intro hmem
        rcases List.mem_map.mp hmem with ⟨item, hitem, hurl⟩
        have : acc.1.any (fun item => item.url == link) = true :=
          List.any_eq_true.mpr ⟨item, hitem, by simp [hurl]⟩
        simp [this] at hg
      refine ih _ ?_ ?_ ?_
      · simp only [List.map_append, List.map_cons, List.map_nil]
        exact nodup_append_one ha hnotin
      · intro u hu
        rcases List.mem_map.mp hu with ⟨e, he, hurl⟩
        rcases List.mem_append.mp he with he | he
        · exact hb u (hurl ▸ List.mem_map.mpr ⟨e, he, rfl⟩)
        · simp only [List.mem_singleton] at he
          subst he
          simpa [← hurl] using hg.1
      · intro e he
        rcases List.mem_append.mp he with he | he
        · exact hc e he
        · simp only [List.mem_singleton] at he
          subst he
          exact hstep

/-- `enqueueLinks` keeps the frontier duplicate-free, disjoint from the
visited set, and within the depth bound. -/
theorem enqueueLinks_pres (crawled : List String) (depth maxD : Nat)
    (links : List String) (fr : List FrontierEntry)
    (h1 : (fr.map FrontierEntry.url).Nodup)
    (h2 : ∀ u ∈ fr.map FrontierEntry.url, u ∉ crawled)
    (h3 : ∀ e ∈ fr, e.depth ≤ maxD) :
    (((enqueueLinks crawled depth maxD links fr).1.map FrontierEntry.url).Nodup
      ∧ (∀ u ∈ (enqueueLinks crawled depth maxD links fr).1.map FrontierEntry.url,
          u ∉ crawled)
      ∧ (∀ e ∈ (enqueueLinks crawled depth maxD links fr).1, e.depth ≤ maxD)) := by
  unfold enqueueLinks
  split
  · exact enqueueFold_pres crawled depth maxD (by omega) links (fr, []) h1 h2 h3
  · exact ⟨h1, h2, h3⟩

/-- Processing one popped page preserves the loop invariant. -/
theorem processPage_inv (oracle : String → FetchResult) (opts : CrawlOpts)
    (now : Nat) (url : String) (depth : Nat) (rest : List FrontierEntry)
    (st : CrawlState) (hinv : CrawlInv opts st)
    (htc : st.toCrawl = ⟨url, depth⟩ :: rest)
    (hb : st.results.length < opts.maxPages)
    (hcr : url ∉ st.crawled) (hd : depth ≤ opts.maxDepth) :
    CrawlInv opts (processPage oracle opts now url depth rest st) := by
  have hrestN : (rest.map FrontierEntry.url).Nodup := by
    have := hinv.frontierNodup
    rw [htc] at this
    exact (List.nodup_cons.mp this).2
  have hheadN : url ∉ rest.map FrontierEntry.url := by
    have := hinv.frontierNodup
    rw [htc] at this
    exact (List.nodup_cons.mp this).1
  have hrestF : ∀ u ∈ rest.map FrontierEntry.url, u ∉ addToSet st.crawled url := by
    intro u hu hmem
    rcases mem_addToSet.mp hmem with h | rfl
    · exact hinv.frontierFresh u (by rw [htc]; exact List.mem_cons_of_mem _ hu) h
    · exact hheadN hu
  have hrestD : ∀ e ∈ rest, e.depth ≤ opts.maxDepth := by
    intro e he
    exact hinv.frontierDepth e (by rw [htc]; exact List.mem_cons_of_mem _ he)
  have hcrN : (addToSet st.crawled url).Nodup := by
    rw [addToSet_eq_append hcr]
    exact nodup_append_one hinv.crawledNodup hcr
  have hresU : url ∉ st.results.map PageResult.url := fun h =>
    hcr (hinv.resultsCrawled url h)
  have hperU : url ∉ st.persisted.map StoredPage.url := fun h =>
    hcr (hinv.persistedCrawled url h)
  unfold processPage
  cases horacle : oracle url with
  | ok links =>
    have hq := enqueueLinks_pres (addToSet st.crawled url) depth opts.maxDepth
      links rest hrestN hrestF hrestD
    exact {
      crawledNodup := hcrN
      frontierNodup := hq.1
      frontierFresh := hq.2.1
      frontierDepth := hq.2.2
      resultsBudget := by simpa using hb
      resultsNodup := by
        simp only [List.map_append, List.map_cons, List.map_nil]
        exact nodup_append_one hinv.resultsNodup hresU
      resultsCrawled := by
        intro u hu
        rcases List.mem_map.mp hu with ⟨r, hr, hurl⟩
        rcases List.mem_append.mp hr with hr | hr
        · exact mem_addToSet.mpr (Or.inl
            (hinv.resultsCrawled u (hurl ▸ List.mem_map.mpr ⟨r, hr, rfl⟩)))
        · simp only [List.mem_singleton] at hr
          subst hr
          exact mem_addToSet.mpr (Or.inr hurl.symm)
      resultsDepth := by
        intro r hr
        rcases List.mem_append.mp hr with hr | hr
        · exact hinv.resultsDepth r hr
        · simp only [List.mem_singleton] at hr
          subst hr
          exact hd
      persistedNodup := by
        simp only [List.map_append, List.map_cons, List.map_nil]
        exact nodup_append_one hinv.persistedNodup hperU
      persistedCrawled := by
        intro u hu
        rcases List.mem_map.mp hu with ⟨r, hr, hurl⟩
        rcases List.mem_append.mp hr with hr | hr
        · exact mem_addToSet.mpr (Or.inl
            (hinv.persistedCrawled u (hurl ▸ List.mem_map.mpr ⟨r, hr, rfl⟩)))
        · simp only [List.mem_singleton] at hr
          subst hr
          exact mem_addToSet.mpr (Or.inr hurl.symm)
      persistedDepth := by
        intro r hr
        rcases List.mem_append.mp hr with hr | hr
        · exact hinv.persistedDepth r hr
        · simp only [List.mem_singleton] at hr
          subst hr
          exact hd }
  | failure msg =>
    exact {
      crawledNodup := hcrN
      frontierNodup := hrestN
      frontierFresh := hrestF
      frontierDepth := hrestD
      resultsBudget := by simpa using hb
      resultsNodup := by
        simp only [List.map_append, List.map_cons, List.map_nil]
        exact nodup_append_one hinv.resultsNodup hresU
      resultsCrawled := by
        intro u hu
        rcases List.mem_map.mp hu with ⟨r, hr, hurl⟩
        rcases List.mem_append.mp hr with hr | hr
        · exact mem_addToSet.mpr (Or.inl
            (hinv.resultsCrawled u (hurl ▸ List.mem_map.mpr ⟨r, hr, rfl⟩)))
        · simp only [List.mem_singleton] at hr
          subst hr
          exact mem_addToSet.mpr (Or.inr hurl.symm)
      resultsDepth := by
        intro r hr
        rcases List.mem_append.mp hr with hr | hr
        · exact hinv.resultsDepth r hr
        · simp only [List.mem_singleton] at hr
          subst hr
          exact hd
      persistedNodup := by
        simp only [List.map_append, List.map_cons, List.map_nil]
        exact nodup_append_one hinv.persistedNodup hperU
      persistedCrawled := by
        intro u hu
        rcases List.mem_map.mp hu with ⟨r, hr, hurl⟩
        rcases List.mem_append.mp hr with hr | hr
        · exact mem_addToSet.mpr (Or.inl
            (hinv.persistedCrawled u (hurl ▸ List.mem_map.mpr ⟨r, hr, rfl⟩)))
        · simp only [List.mem_singleton] at hr
          subst hr
          exact mem_addToSet.mpr (Or.inr hurl.symm)
      persistedDepth := by
        intro r hr
        rcases List.mem_append.mp hr with hr | hr
        · exact hinv.persistedDepth r hr
        · simp only [List.mem_singleton] at hr
          subst hr
          exact hd }

/-- Inversion principle for one loop iteration. -/
theorem crawlStep_cases (oracle : String → FetchResult) (opts : CrawlOpts)
    (now : Nat) (st st2 : CrawlState)
    (h : crawlStep oracle opts now st = some st2) :
    ∃ e rest, st.toCrawl = e :: rest ∧ st.results.length < opts.maxPages ∧
      (((e.url ∈ st.crawled ∨ opts.maxDepth < e.depth) ∧
          st2 = { st with toCrawl := rest })
        ∨ (e.url ∉ st.crawled ∧ e.depth ≤ opts.maxDepth ∧
          st2 = processPage oracle opts now e.url e.depth rest st)) := by
  rcases htc : st.toCrawl with _ | ⟨e, rest⟩
  · rw [crawlStep_eq_nil oracle opts now st htc] at h
    exact absurd h (by simp)
  · rw [crawlStep_eq_cons oracle opts now st e rest htc] at h
    by_cases hb : st.results.length < opts.maxPages
    · rw [if_pos hb] at h
      refine ⟨e, rest, rfl, hb, ?_⟩
      by_cases hg : e.url ∈ st.crawled ∨ opts.maxDepth < e.depth
      · rw [if_pos hg] at h
        exact Or.inl ⟨hg, (Option.some_injective _ h).symm⟩
      · rw [if_neg hg] at h
        push_neg at hg
        exact Or.inr ⟨hg.1, by omega, (Option.some_injective _ h).symm⟩
    · rw [if_neg hb] at h
      exact absurd h (by simp)

/-- One loop iteration preserves the loop invariant. -/
theorem crawlStep_inv (oracle : String → FetchResult) (opts : CrawlOpts)
    (now : Nat) (st st2 : CrawlState)
    (h : crawlStep oracle opts now st = some st2)
    (hinv : CrawlInv opts st) : CrawlInv opts st2 := by
  rcases crawlStep_cases oracle opts now st st2 h with
    ⟨e, rest, htc, hb, ⟨_, rfl⟩ | ⟨hcr, hd, rfl⟩⟩
  · exact {
      crawledNodup := hinv.crawledNodup
      frontierNodup := by
        have := hinv.frontierNodup
        rw [htc] at this
        exact (List.nodup_cons.mp this).2
      frontierFresh := fun u hu =>
        hinv.frontierFresh u (by rw [htc]; exact List.mem_cons_of_mem _ hu)
      frontierDepth := fun e2 he =>
        hinv.frontierDepth e2 (by rw [htc]; exact List.mem_cons_of_mem _ he)
      resultsBudget := hinv.resultsBudget
      resultsNodup := hinv.resultsNodup
      resultsCrawled := hinv.resultsCrawled
      resultsDepth := hinv.resultsDepth
      persistedNodup := hinv.persistedNodup
      persistedCrawled := hinv.persistedCrawled
      persistedDepth := hinv.persistedDepth }
  · exact processPage_inv oracle opts now e.url e.depth rest st hinv
      (by rw [htc]) hb hcr hd

/-- Iterating the loop preserves the loop invariant. -/
theorem stepN_inv (oracle : String → FetchResult) (opts : CrawlOpts)
    (now : Nat) :
    ∀ (n : Nat) (st : CrawlState), CrawlInv opts st →
      CrawlInv opts (stepN oracle opts now n st) := by
  intro n
  induction n with
  | zero => intro st h; exact h
  | succ n ih =>
    intro st h
    rw [stepN]
    rcases hs : crawlStep oracle opts now st with _ | st2
    · exact h
    · exact ih st2 (crawlStep_inv oracle opts now st st2 hs h)

/-- The initial crawl state satisfies the loop invariant. -/
theorem initCrawlState_inv (jobId startUrl : String) (opts : CrawlOpts)
    (t0 : Nat) : CrawlInv opts (initCrawlState jobId startUrl opts t0) := by
  exact {
    crawledNodup := List.nodup_nil
    frontierNodup := by simp [initCrawlState]
    frontierFresh := by simp [initCrawlState]
    frontierDepth := by simp [initCrawlState]
    resultsBudget := by simp [initCrawlState]
    resultsNodup := by simp [initCrawlState]
    resultsCrawled := by simp [initCrawlState]
    resultsDepth := by simp [initCrawlState]
    persistedNodup := by simp [initCrawlState]
    persistedCrawled := by simp [initCrawlState]
    persistedDepth := by simp [initCrawlState] }

/-- The whole run maintains the loop invariant at every point. -/
theorem crawlRun_inv (oracle : String → FetchResult) (opts : CrawlOpts)
    (jobId startUrl : String) (t0 now n : Nat) :
    CrawlInv opts (crawlRun oracle opts jobId startUrl t0 now n) :=
  stepN_inv oracle opts now n _ (initCrawlState_inv jobId startUrl opts t0)

/-- The loop never reaches its budget and then processes another page:
once `maxPages` results exist the loop condition fails. -/
theorem crawlStep_budget_exit (oracle : String → FetchResult)
    (opts : CrawlOpts) (now : Nat) (st : CrawlState)
    (h : opts.maxPages ≤ st.results.length) :
    crawlStep oracle opts now st = none := by
  rcases htc : st.toCrawl with _ | ⟨e, rest⟩
  · exact crawlStep_eq_nil oracle opts now st htc
  · rw [crawlStep_eq_cons oracle opts now st e rest htc, if_neg (by omega)]

/-! ## Claim C3: page budget -/

/-- C3: throughout a crawl run the number of results never exceeds
`maxPages`; once the budget is reached the loop exits (the next
`crawlStep` is `none`); and the frontier entries remaining at any point —
in particular those discarded at exit — have been neither processed into
results nor persisted as pages. -/
theorem crawl_respects_page_budget (oracle : String → FetchResult)
    (opts : CrawlOpts) (jobId startUrl : String) (t0 now n : Nat) :
    (crawlRun oracle opts jobId startUrl t0 now n).results.length ≤ opts.maxPages
      ∧ (opts.maxPages ≤ (crawlRun oracle opts jobId startUrl t0 now n).results.length →
          crawlStep oracle opts now (crawlRun oracle opts jobId startUrl t0 now n) = none)
      ∧ ∀ e ∈ (crawlRun oracle opts jobId startUrl t0 now n).toCrawl,
          e.url ∉ (crawlRun oracle opts jobId startUrl t0 now n).results.map PageResult.url
            ∧ e.url ∉ (crawlRun oracle opts jobId startUrl t0 now n).persisted.map StoredPage.url := by
  have hinv := crawlRun_inv oracle opts jobId startUrl t0 now n
  refine ⟨hinv.resultsBudget, fun h => crawlStep_budget_exit oracle opts now _ h, ?_⟩
  intro e he
  have hfresh := hinv.frontierFresh e.url
    (List.mem_map.mpr ⟨e, he, rfl⟩)
  exact ⟨fun hmem => hfresh (hinv.resultsCrawled e.url hmem),
    fun hmem => hfresh (hinv.persistedCrawled e.url hmem)⟩

/-- C3 witness: with a two-page budget on a four-page site the run stops
after exactly two pages, the loop condition fails, and a discarded
frontier entry was never persisted. -/
theorem crawl_respects_page_budget_witness :
    (crawlRun demoLinksOracle ⟨3, 2⟩ "job-1" "http://site.test/" 0 0 9).results.length ≤ 2
      ∧ crawlStep demoLinksOracle ⟨3, 2⟩ 0
          (crawlRun demoLinksOracle ⟨3, 2⟩ "job-1" "http://site.test/" 0 0 9) = none
      ∧ "http://site.test/c" ∉
          (crawlRun demoLinksOracle ⟨3, 2⟩ "job-1" "http://site.test/" 0 0 9).persisted.map StoredPage.url := by
  have h := crawl_respects_page_budget demoLinksOracle ⟨3, 2⟩ "job-1"
    "http://site.test/" 0 0 9
  refine ⟨h.1, h.2.1 (by decide), ?_⟩
  exact (h.2.2 ⟨"http://site.test/c", 1⟩ (by decide)).2

/-! ## Claim C4: depth bound -/

/-- C4: throughout a crawl run every result and every persisted page has
depth at most `maxDepth`, and every frontier entry (each enqueued at
`depth + 1` only under the guard `depth < maxDepth`) has depth at most
`maxDepth`. -/
theorem crawl_respects_max_depth (oracle : String → FetchResult)
    (opts : CrawlOpts) (jobId startUrl : String) (t0 now n : Nat) :
    (∀ r ∈ (crawlRun oracle opts jobId startUrl t0 now n).results,
        r.depth ≤ opts.maxDepth)
      ∧ (∀ p ∈ (crawlRun oracle opts jobId startUrl t0 now n).persisted,
          p.depth ≤ opts.maxDepth)
      ∧ (∀ e ∈ (crawlRun oracle opts jobId startUrl t0 now n).toCrawl,
          e.depth ≤ opts.maxDepth) := by
  have hinv := crawlRun_inv oracle opts jobId startUrl t0 now n
  exact ⟨hinv.resultsDepth, hinv.persistedDepth, hinv.frontierDepth⟩

/-- C4 witness: in the depth-one crawl of the demo site, the page at
depth 1 is processed with depth within bound. -/
theorem crawl_respects_max_depth_witness :
    (⟨"http://site.test/b", 1, 2, true, none, 0⟩ : PageResult) ∈
        (crawlRun demoLinksOracle ⟨1, 5⟩ "job-1" "http://site.test/" 0 0 9).results
      ∧ (1 : Nat) ≤ 1 := by
  refine ⟨by decide, ?_⟩
  exact (crawl_respects_max_depth demoLinksOracle ⟨1, 5⟩ "job-1"
    "http://site.test/" 0 0 9).1
    ⟨"http://site.test/b", 1, 2, true, none, 0⟩ (by decide)

/-! ## Claim C5: no URL processed twice -/

/-- C5: throughout a crawl run the visited set is duplicate-free, each URL
yields at most one entry of the results array and at most one persisted
page, and the frontier itself never holds the same URL twice (in-flight
duplicates are rejected by the frontier-membership check). -/
theorem crawl_no_url_twice (oracle : String → FetchResult)
    (opts : CrawlOpts) (jobId startUrl : String) (t0 now n : Nat) :
    (crawlRun oracle opts jobId startUrl t0 now n).crawled.Nodup
      ∧ ((crawlRun oracle opts jobId startUrl t0 now n).results.map PageResult.url).Nodup
      ∧ ((crawlRun oracle opts jobId startUrl t0 now n).persisted.map StoredPage.url).Nodup
      ∧ ((crawlRun oracle opts jobId startUrl t0 now n).toCrawl.map FrontierEntry.url).Nodup := by
  have hinv := crawlRun_inv oracle opts jobId startUrl t0 now n
  exact ⟨hinv.crawledNodup, hinv.resultsNodup, hinv.persistedNodup,
    hinv.frontierNodup⟩

/-! ## Claim C7: page failures are recorded and do not abort the job -/

/-- The observable effects of processing a page whose attempt throws:
the failed page result is appended (with `success = false` and the error
string), the failed page row is persisted, the error is appended to the
tracker's error list, and the frontier is left at the remaining
entries. -/
theorem processPage_failure_fields (oracle : String → FetchResult)
    (opts : CrawlOpts) (now : Nat) (url : String) (depth : Nat)
    (rest : List FrontierEntry) (st : CrawlState) (msg : String)
    (horacle : oracle url = .failure msg) :
    (processPage oracle opts now url depth rest st).results =
        st.results ++ [⟨url, depth, st.results.length + 1, false, some msg, 0⟩]
      ∧ (processPage oracle opts now url depth rest st).persisted =
        st.persisted ++ [⟨url, depth, 0, 0, some msg⟩]
      ∧ (processPage oracle opts now url depth rest st).toCrawl = rest
      ∧ (processPage oracle opts now url depth rest st).tracker.errors =
        st.tracker.errors ++ [⟨url, msg, now, depth⟩]
      ∧ (processPage oracle opts now url depth rest st).failedUrls =
        st.failedUrls ++ [url]
      ∧ (processPage oracle opts now url depth rest st).dbStatus = st.dbStatus := by
  unfold processPage
  rw [horacle]
  exact ⟨rfl, rfl, rfl, rfl, rfl, rfl⟩

/-- `processPage` never writes the job-status column. -/
theorem processPage_dbStatus (oracle : String → FetchResult)
    (opts : CrawlOpts) (now : Nat) (url : String) (depth : Nat)
    (rest : List FrontierEntry) (st : CrawlState) :
    (processPage oracle opts now url depth rest st).dbStatus = st.dbStatus := by
  unfold processPage
  cases oracle url <;> rfl

/-- One loop iteration never writes the job-status column. -/
theorem crawlStep_dbStatus (oracle : String → FetchResult)
    (opts : CrawlOpts) (now : Nat) (st st2 : CrawlState)
    (h : crawlStep oracle opts now st = some st2) :
    st2.dbStatus = st.dbStatus := by
  rcases crawlStep_cases oracle opts now st st2 h with
    ⟨e, rest, htc, hb, ⟨_, rfl⟩ | ⟨_, _, rfl⟩⟩
  · rfl
  · exact processPage_dbStatus oracle opts now e.url e.depth rest st

/-- Iterating the loop never writes the job-status column. -/
theorem stepN_dbStatus (oracle : String → FetchResult) (opts : CrawlOpts)
    (now : Nat) :
    ∀ (n : Nat) (st : CrawlState),
      (stepN oracle opts now n st).dbStatus = st.dbStatus := by
  intro n
  induction n with
  | zero => intro st; rfl
  | succ n ih =>
    intro st
    rw [stepN]
    rcases hs : crawlStep oracle opts now st with _ | st2
    · rfl
    · rw [ih st2, crawlStep_dbStatus oracle opts now st st2 hs]

/-- The results array only ever grows. -/
theorem crawlStep_results_mono (oracle : String → FetchResult)
    (opts : CrawlOpts) (now : Nat) (st st2 : CrawlState)
    (h : crawlStep oracle opts now st = some st2) :
    ∃ t, st2.results = st.results ++ t := by
  rcases crawlStep_cases oracle opts now st st2 h with
    ⟨e, rest, htc, hb, ⟨_, rfl⟩ | ⟨_, _, rfl⟩⟩
  · exact ⟨[], by simp⟩
  · unfold processPage
    cases oracle e.url <;> exact ⟨_, rfl⟩

/-- The results array only ever grows across iterated steps. -/
theorem stepN_results_mono (oracle : String → FetchResult)
    (opts : CrawlOpts) (now : Nat) :
    ∀ (n : Nat) (st : CrawlState),
      ∃ t, (stepN oracle opts now n st).results = st.results ++ t := by
  intro n
  induction n with
  | zero => intro st; exact ⟨[], by simp [stepN]⟩
  | succ n ih =>
    intro st
    rw [stepN]
    rcases hs : crawlStep oracle opts now st with _ | st2
    · exact ⟨[], by simp⟩
    · rcases crawlStep_results_mono oracle opts now st st2 hs with ⟨t1, ht1⟩
      rcases ih st2 with ⟨t2, ht2⟩
      exact ⟨t1 ++ t2, by rw [ht2, ht1, List.append_assoc]⟩

/-- C7: when the popped frontier entry's page attempt throws, the job is
not aborted: the step records a page result with `success = false` and the
error string, persists the failed page row, appends the error to the
tracker's error list, and the loop continues with the remaining frontier
entries; the failed URL is never retried — at every later point it has
exactly one entry in the results array. -/
theorem page_failure_recorded (oracle : String → FetchResult)
    (opts : CrawlOpts) (now : Nat) (st : CrawlState) (url : String)
    (depth : Nat) (rest : List FrontierEntry) (msg : String)
    (hinv : CrawlInv opts st)
    (htc : st.toCrawl = ⟨url, depth⟩ :: rest)
    (hb : st.results.length < opts.maxPages)
    (hcr : url ∉ st.crawled) (hd : depth ≤ opts.maxDepth)
    (horacle : oracle url = .failure msg) :
    ∃ st2, crawlStep oracle opts now st = some st2
      ∧ st2.results = st.results ++ [⟨url, depth, st.results.length + 1, false, some msg, 0⟩]
      ∧ st2.persisted = st.persisted ++ [⟨url, depth, 0, 0, some msg⟩]
      ∧ st2.tracker.errors = st.tracker.errors ++ [⟨url, msg, now, depth⟩]
      ∧ st2.toCrawl = rest
      ∧ (∀ n, stepN oracle opts now (n + 1) st = stepN oracle opts now n st2)
      ∧ (∀ n, List.count url
          ((stepN oracle opts now n st2).results.map PageResult.url) = 1) := by
  have hstep : crawlStep oracle opts now st =
      some (processPage oracle opts now url depth rest st) := by
    rw [crawlStep_eq_cons oracle opts now st ⟨url, depth⟩ rest htc, if_pos hb,
      if_neg (by push_neg; exact ⟨hcr, hd⟩)]
  have hf := processPage_failure_fields oracle opts now url depth rest st msg horacle
  refine ⟨processPage oracle opts now url depth rest st, hstep,
    hf.1, hf.2.1, hf.2.2.2.1, hf.2.2.1, ?_, ?_⟩
  · intro n
    rw [stepN, hstep]
  · intro n
    have hinv2 : CrawlInv opts (stepN oracle opts now n
        (processPage oracle opts now url depth rest st)) :=
      stepN_inv oracle opts now n _
        (processPage_inv oracle opts now url depth rest st hinv htc hb hcr hd)
    rcases stepN_results_mono oracle opts now n
      (processPage oracle opts now url depth rest st) with ⟨t, ht⟩
    have hmem : url ∈ (stepN oracle opts now n
        (processPage oracle opts now url depth rest st)).results.map PageResult.url := by
      rw [ht, hf.1]
      exact List.mem_map.mpr
        ⟨⟨url, depth, st.results.length + 1, false, some msg, 0⟩,
          by simp, rfl⟩
    exact List.count_eq_one_of_mem hinv2.resultsNodup hmem

/-- C7 witness: in the demo crawl where page `b` times out, the failure is
recorded, persisted, and the loop continues to process page `c`, with `b`
appearing exactly once in the final results. -/
theorem page_failure_recorded_witness :
    ∃ st2, crawlStep demoFailOracle ⟨1, 5⟩ 0
        (crawlRun demoFailOracle ⟨1, 5⟩ "job-1" "http://site.test/" 0 0 1) = some st2
      ∧ st2.results =
          (crawlRun demoFailOracle ⟨1, 5⟩ "job-1" "http://site.test/" 0 0 1).results ++
            [⟨"http://site.test/b", 1,
              (crawlRun demoFailOracle ⟨1, 5⟩ "job-1" "http://site.test/" 0 0 1).results.length + 1,
              false, some "Navigation timeout of 3000 ms exceeded", 0⟩]
      ∧ st2.persisted =
          (crawlRun demoFailOracle ⟨1, 5⟩ "job-1" "http://site.test/" 0 0 1).persisted ++
            [⟨"http://site.test/b", 1, 0, 0, some "Navigation timeout of 3000 ms exceeded"⟩]
      ∧ st2.tracker.errors =
          (crawlRun demoFailOracle ⟨1, 5⟩ "job-1" "http://site.test/" 0 0 1).tracker.errors ++
            [⟨"http://site.test/b", "Navigation timeout of 3000 ms exceeded", 0, 1⟩]
      ∧ st2.toCrawl = [⟨"http://site.test/c", 1⟩]
      ∧ (∀ n, stepN demoFailOracle ⟨1, 5⟩ 0 (n + 1)
            (crawlRun demoFailOracle ⟨1, 5⟩ "job-1" "http://site.test/" 0 0 1) =
          stepN demoFailOracle ⟨1, 5⟩ 0 n st2)
      ∧ (∀ n, List.count "http://site.test/b"
          ((stepN demoFailOracle ⟨1, 5⟩ 0 n st2).results.map PageResult.url) = 1) := by
  have h := page_failure_recorded demoFailOracle ⟨1, 5⟩ 0
    (crawlRun demoFailOracle ⟨1, 5⟩ "job-1" "http://site.test/" 0 0 1)
    "http://site.test/b" 1 [⟨"http://site.test/c", 1⟩]
    "Navigation timeout of 3000 ms exceeded"
    (crawlRun_inv demoFailOracle ⟨1, 5⟩ "job-1" "http://site.test/" 0 0 1)
    (by decide) (by decide) (by decide) (by decide) (by decide)
  exact h

/-! ## Claim C1: cancellation of a running crawl -/

/-- C1: evaluation of the engine at the failing input.  `cancelCrawlJob`
reports success, marks the tracker `failed` (not `cancelled`) and writes
`cancelled` to the job row — but the loop, which consults no cancellation
flag, afterwards processes three further pages (growing `results` from 1
to 4), and the run's normal finalisation then overwrites the job row with
`completed` and the tracker with `completed`.  The job therefore neither
stops after the in-flight page nor ends in the terminal status
`cancelled`. -/
theorem cancel_does_not_stop_loop :
    (cancelCrawlJob 0
        (crawlRun demoLinksOracle ⟨1, 5⟩ "job-1" "http://site.test/" 0 0 1)).1 = true
      ∧ demoCancelMid.dbStatus = .cancelled
      ∧ demoCancelMid.tracker.status = .failed
      ∧ demoCancelMid.results.length = 1
      ∧ (stepN demoLinksOracle ⟨1, 5⟩ 0 9 demoCancelMid).results.length = 4
      ∧ demoCancelFinal.dbStatus = .completed
      ∧ demoCancelFinal.tracker.status = .completed := by
  refine ⟨by decide, by decide, ?_, by decide, by decide, rfl, rfl⟩
  decide

/-! ## Claim C2: monotonic, one-way job status transitions -/

/-- C2 counterexample: `JobManager.cancelJob` guards only `completed`:
applied to a job whose persisted status is the terminal `failed` (and
whose queue entry is gone), it changes the status to `cancelled` — a
transition out of a terminal status. -/
theorem cancelJob_changes_failed_status :
    managerCancelJob ⟨false, false⟩ (some .failed) = (true, some .cancelled)
      ∧ (managerCancelJob ⟨false, false⟩ (some .failed)).2 ≠ some .failed := by
  decide

/-- C2 (amended): the crawl path itself is monotonic — the run starts at
`processing`, the loop body never writes the status column, and normal
finalisation writes `completed`; and `cancelJob` never changes a
`completed` status and can only ever write `cancelled`.  But `failed` and
`cancelled` are not protected: `cancelJob` re-marks them `cancelled`, and
the finalisation of a still-running crawl overwrites any concurrently
written `cancelled` status with `completed`. -/
theorem job_status_transitions (oracle : String → FetchResult)
    (opts : CrawlOpts) (jobId startUrl : String) (t0 now n : Nat)
    (env : QueueCancelEnv) (s : JobStatus) (st : CrawlState) :
    (initCrawlState jobId startUrl opts t0).dbStatus = .processing
      ∧ (crawlRun oracle opts jobId startUrl t0 now n).dbStatus = .processing
      ∧ (finalizeCrawl st now).dbStatus = .completed
      ∧ managerCancelJob env (some .completed) = (false, some .completed)
      ∧ ((managerCancelJob env (some s)).2 = some s
          ∨ (managerCancelJob env (some s)).2 = some .cancelled)
      ∧ (cancelCrawlJob now st).2.dbStatus =
          (if st.trackerRegistered then .cancelled else st.dbStatus)
      ∧ (finalizeCrawl (cancelCrawlJob now st).2 now).dbStatus = .completed := by
  refine ⟨rfl, ?_, rfl, ?_, ?_, ?_, rfl⟩
  · exact stepN_dbStatus oracle opts now n _
  · rcases env with ⟨q, r⟩
    cases q <;> cases r <;> rfl
  · rcases env with ⟨q, r⟩
    cases s <;> cases q <;> cases r <;> simp [managerCancelJob]
  · unfold cancelCrawlJob
    split <;> simp_all

/-! ## Claim C6: browser pool policy and bound -/

theorem inUseCount_le (st : BrowserManagerState) :
    inUseCount st ≤ st.instances.length :=
  List.length_filter_le _ _

theorem cleanupOldInstances_length_le (now : Nat)
    (st : BrowserManagerState) :
    (cleanupOldInstances now st).instances.length ≤ st.instances.length :=
  List.length_filter_le _ _

theorem getBrowserScan_length_le (now : Nat) (st : BrowserManagerState) :
    (getBrowserScan now st).instances.length ≤ st.instances.length := by
  unfold getBrowserScan
  split
  · exact cleanupOldInstances_length_le now st
  · exact Nat.le_refl _

theorem getBrowserScan_maxInstances (now : Nat) (st : BrowserManagerState) :
    (getBrowserScan now st).maxInstances = st.maxInstances := by
  unfold getBrowserScan
  split <;> rfl

theorem reuseFirstIdle_length (now : Nat) :
    ∀ (l : List BrowserInstance) (r : Nat × List BrowserInstance),
      reuseFirstIdle now l = some r → r.2.length = l.length := by
  intro l
  induction l with
  | nil => intro r h; exact absurd h (by simp [reuseFirstIdle])
  | cons i rest ih =>
    intro r h
    rw [reuseFirstIdle] at h
    by_cases hi : i.inUse
    · rw [if_neg (by simp [hi])] at h
      rcases hr : reuseFirstIdle now rest with _ | r2
      · rw [hr] at h; exact absurd h (by simp)
      · rw [hr] at h
        have h2 : (r2.1, i :: r2.2) = r := by simpa using h
        rw [← h2]
        simpa using ih r2 hr
    · rw [if_pos (by simp [hi])] at h
      rw [← Option.some_injective _ h]
      simp

theorem getBrowser_eq_reuse (now : Nat) (st : BrowserManagerState)
    (r : Nat × List BrowserInstance)
    (h : reuseFirstIdle now (getBrowserScan now st).instances = some r) :
    getBrowser now st =
      ({ getBrowserScan now st with instances := r.2 }, .ok r.1) := by
  simp only [getBrowser]
  rw [h]

theorem getBrowser_eq_create (now : Nat) (st : BrowserManagerState)
    (h : reuseFirstIdle now (getBrowserScan now st).instances = none)
    (hlt : (getBrowserScan now st).instances.length < st.maxInstances) :
    getBrowser now st =
      ({ getBrowserScan now st with
          instances :=
            List.map
              (fun i => if i.id = (getBrowserScan now st).nextId then
                { i with inUse := true } else i)
              ((getBrowserScan now st).instances ++
                [{ id := (getBrowserScan now st).nextId, inUse := false,
                   createdAt := now, lastUsed := now }])
          nextId := (getBrowserScan now st).nextId + 1 },
        .ok (getBrowserScan now st).nextId) := by
  simp only [getBrowser]
  rw [h, if_pos hlt]
  rfl

theorem getBrowser_eq_exhausted (now : Nat) (st : BrowserManagerState)
    (h : reuseFirstIdle now (getBrowserScan now st).instances = none)
    (hge : ¬ (getBrowserScan now st).instances.length < st.maxInstances) :
    getBrowser now st =
      (getBrowserScan now st,
        .error "No available browser instances and maximum limit reached") := by
  simp only [getBrowser]
  rw [h, if_neg hge]

/-- C6: under the pool-size invariant, `getBrowser` keeps the instance
count (and hence the busy count) within `maxInstances`, and follows the
policy: reuse the first idle instance when one exists (pool size
unchanged); otherwise create a new instance only when under capacity
(pool grows by one); otherwise fail immediately with the exhaustion
error. -/
theorem pool_getBrowser_bounded (now : Nat) (st : BrowserManagerState)
    (hwf : st.instances.length ≤ st.maxInstances) :
    ((getBrowser now st).1.instances.length ≤ st.maxInstances
        ∧ (getBrowser now st).1.maxInstances = st.maxInstances
        ∧ inUseCount (getBrowser now st).1 ≤ st.maxInstances)
      ∧ (∀ r, reuseFirstIdle now (getBrowserScan now st).instances = some r →
          (getBrowser now st).2 = .ok r.1
            ∧ (getBrowser now st).1.instances.length =
              (getBrowserScan now st).instances.length)
      ∧ (reuseFirstIdle now (getBrowserScan now st).instances = none →
          (getBrowserScan now st).instances.length < st.maxInstances →
          (getBrowser now st).2 = .ok (getBrowserScan now st).nextId
            ∧ (getBrowser now st).1.instances.length =
              (getBrowserScan now st).instances.length + 1)
      ∧ (reuseFirstIdle now (getBrowserScan now st).instances = none →
          st.maxInstances ≤ (getBrowserScan now st).instances.length →
          (getBrowser now st).2 =
            .error "No available browser instances and maximum limit reached") := by
  have hscan := getBrowserScan_length_le now st
  rcases hre : reuseFirstIdle now (getBrowserScan now st).instances with _ | r
  · by_cases hlt : (getBrowserScan now st).instances.length < st.maxInstances
    · rw [getBrowser_eq_create now st hre hlt]
      refine ⟨⟨?_, getBrowserScan_maxInstances now st, ?_⟩, ?_, ?_, ?_⟩
      · simp only [List.length_map, List.length_append, List.length_cons,
          List.length_nil]
        omega
      · refine Nat.le_trans (inUseCount_le _) ?_
        simp only [List.length_map, List.length_append, List.length_cons,
          List.length_nil]
        omega
      · intro r hr
        exact absurd hr (by simp)
      · intro _ _
        refine ⟨rfl, ?_⟩
        simp only [List.length_map, List.length_append, List.length_cons,
          List.length_nil]
      · intro _ hge
        omega
    · rw [getBrowser_eq_exhausted now st hre hlt]
      refine ⟨⟨?_, getBrowserScan_maxInstances now st, ?_⟩, ?_, ?_, ?_⟩
      · show (getBrowserScan now st).instances.length ≤ st.maxInstances
        omega
      · refine Nat.le_trans (inUseCount_le _) ?_
        show (getBrowserScan now st).instances.length ≤ st.maxInstances
        omega
      · intro r hr
        exact absurd hr (by simp)
      · intro _ hlt2
        exact absurd hlt2 hlt
      · intro _ _
        rfl
  · have hrlen := reuseFirstIdle_length now _ r hre
    rw [getBrowser_eq_reuse now st r hre]
    refine ⟨⟨?_, getBrowserScan_maxInstances now st, ?_⟩, ?_, ?_, ?_⟩
    · exact hrlen ▸ Nat.le_trans hscan hwf
    · exact Nat.le_trans (inUseCount_le _)
        (hrlen ▸ Nat.le_trans hscan hwf)
    · intro r2 hr2
      rcases Option.some_injective _ hr2 with rfl
      exact ⟨rfl, hrlen⟩
    · intro hnone
      exact absurd hnone (by simp)
    · intro hnone
      exact absurd hnone (by simp)

/-- C6 witness: a full busy pool of one fails fast with the exhaustion
error; a pool with one idle instance reuses it; an empty pool stays within
its bound after an acquisition. -/
theorem pool_getBrowser_bounded_witness :
    (getBrowser 0 ⟨[⟨0, true, 0, 0⟩], 1, 1⟩).2 =
        .error "No available browser instances and maximum limit reached"
      ∧ (getBrowser 0 ⟨[⟨0, false, 0, 0⟩], 1, 1⟩).2 = .ok 0
      ∧ (getBrowser 0 ⟨[], 1, 0⟩).1.instances.length ≤ 1 := by
  refine ⟨?_, ?_, ?_⟩
  · exact (pool_getBrowser_bounded 0 ⟨[⟨0, true, 0, 0⟩], 1, 1⟩
      (by decide)).2.2.2 (by decide) (by decide)
  · exact ((pool_getBrowser_bounded 0 ⟨[⟨0, false, 0, 0⟩], 1, 1⟩
      (by decide)).2.1 (0, [⟨0, true, 0, 0⟩]) (by decide)).1
  · exact (pool_getBrowser_bounded 0 ⟨[], 1, 0⟩ (by decide)).1.1

/-! ## Claim C9: URL normalisation idempotence

The development below establishes when `normalizeUrl` is idempotent:
round-tripping lemmas for the split/serialise primitives, well-formedness
of parsed records, and stability of the per-record normalisation. -/

theorem splitFirstChar_of_not_mem (c : Char) (l : List Char) (h : c ∉ l) :
    splitFirstChar c l = (l, none) := by
  induction l with
  | nil => rfl
  | cons x xs ih =>
    have hx : ¬ x = c := fun he => h (he ▸ List.mem_cons_self x xs)
    have hxs : c ∉ xs := fun hm => h (List.mem_cons_of_mem x hm)
    simp [splitFirstChar, hx, ih hxs]

theorem splitFirstChar_append (c : Char) (a b : List Char) (h : c ∉ a) :
    splitFirstChar c (a ++ c :: b) = (a, some b) := by
  induction a with
  | nil => simp [splitFirstChar]
  | cons x xs ih =>
    have hx : ¬ x = c := fun he => h (he ▸ List.mem_cons_self x xs)
    have hxs : c ∉ xs := fun hm => h (List.mem_cons_of_mem x hm)
    simp [splitFirstChar, hx, ih hxs]

theorem splitFirstChar_eq_none (c : Char) (l a : List Char)
    (h : splitFirstChar c l = (a, none)) : a = l ∧ c ∉ l := by
  induction l generalizing a with
  | nil =>
    simp only [splitFirstChar, Prod.mk.injEq] at h
    exact ⟨h.1.symm, by simp⟩
  | cons x xs ih =>
    by_cases hx : x = c
    · rw [splitFirstChar, if_pos hx] at h
      exact absurd h (by simp)
    · rw [splitFirstChar, if_neg hx] at h
      rcases hr : splitFirstChar c xs with ⟨a1, o1⟩
      rw [hr] at h
      simp only [Prod.mk.injEq] at h
      rcases h with ⟨ha, ho⟩
      rcases ih a1 (by rw [hr, ho]) with ⟨ha1, hxs⟩
      subst ha1
      refine ⟨ha.symm, ?_⟩
      intro hc
      rcases List.mem_cons.mp hc with hc | hc
      · exact hx hc.symm
      · exact hxs hc

theorem splitFirstChar_eq_some (c : Char) (l a b : List Char)
    (h : splitFirstChar c l = (a, some b)) : l = a ++ c :: b ∧ c ∉ a := by
  induction l generalizing a b with
  | nil => exact absurd h (by simp [splitFirstChar])
  | cons x xs ih =>
    by_cases hx : x = c
    · rw [splitFirstChar, if_pos hx] at h
      simp only [Prod.mk.injEq, Option.some.injEq] at h
      rcases h with ⟨ha, hb⟩
      subst hx
      simp [← ha, ← hb]
    · rw [splitFirstChar, if_neg hx] at h
      rcases hr : splitFirstChar c xs with ⟨a1, o1⟩
      rw [hr] at h
      simp only [Prod.mk.injEq] at h
      rcases h with ⟨ha, ho⟩
      rcases ih a1 b (by rw [hr, ho]) with ⟨hxs, hca1⟩
      subst hxs
      refine ⟨by rw [← ha]; rfl, ?_⟩
      rw [← ha]
      intro hc
      rcases List.mem_cons.mp hc with hc | hc
      · exact hx hc.symm
      · exact hca1 hc

/-- The part before the separator consists of characters of the input. -/
theorem splitFirstChar_fst_subset (c : Char) (l : List Char) :
    ∀ x ∈ (splitFirstChar c l).1, x ∈ l := by
  rcases hr : splitFirstChar c l with ⟨a, o⟩
  rcases o with _ | b
  · rcases splitFirstChar_eq_none c l a hr with ⟨rfl, _⟩
    exact fun x hx => hx
  · rcases splitFirstChar_eq_some c l a b hr with ⟨rfl, _⟩
    exact fun x hx => List.mem_append.mpr (Or.inl hx)

theorem splitOnChar_ne_nil (c : Char) (l : List Char) :
    splitOnChar c l ≠ [] := by
  cases l with
  | nil => simp [splitOnChar]
  | cons x xs =>
    rw [splitOnChar]
    split
    · simp
    · rcases hr : splitOnChar c xs with _ | ⟨a, rest⟩ <;> simp

theorem splitOnChar_of_not_mem (c : Char) (a : List Char) (h : c ∉ a) :
    splitOnChar c a = [a] := by
  induction a with
  | nil => rfl
  | cons x xs ih =>
    have hx : ¬ x = c := fun he => h (he ▸ List.mem_cons_self x xs)
    have hxs : c ∉ xs := fun hm => h (List.mem_cons_of_mem x hm)
    rw [splitOnChar, if_neg hx, ih hxs]

theorem splitOnChar_append (c : Char) (a r : List Char) (h : c ∉ a) :
    splitOnChar c (a ++ c :: r) = a :: splitOnChar c r := by
  induction a with
  | nil => simp [splitOnChar]
  | cons x xs ih =>
    have hx : ¬ x = c := fun he => h (he ▸ List.mem_cons_self x xs)
    have hxs : c ∉ xs := fun hm => h (List.mem_cons_of_mem x hm)
    rw [List.cons_append, splitOnChar, if_neg hx, ih hxs]

/-- Every segment produced by `splitOnChar` avoids the separator and
consists of characters of the input. -/
theorem mem_splitOnChar (c : Char) (l : List Char) :
    ∀ s ∈ splitOnChar c l, c ∉ s ∧ ∀ x ∈ s, x ∈ l := by
  induction l with
  | nil =>
    intro s hs
    simp only [splitOnChar, List.mem_singleton] at hs
    subst hs
    simp
  | cons x xs ih =>
    intro s hs
    by_cases hx : x = c
    · rw [splitOnChar, if_pos hx] at hs
      rcases List.mem_cons.mp hs with rfl | hs
      · simp
      · rcases ih s hs with ⟨h1, h2⟩
        exact ⟨h1, fun y hy => List.mem_cons_of_mem x (h2 y hy)⟩
    · rw [splitOnChar, if_neg hx] at hs
      rcases hr : splitOnChar c xs with _ | ⟨a, rest⟩
      · exact absurd hr (splitOnChar_ne_nil c xs)
      · rw [hr] at hs
        rcases List.mem_cons.mp hs with rfl | hs
        · have ha := ih a (by rw [hr]; exact List.mem_cons_self a rest)
          refine ⟨?_, ?_⟩
          · intro hcmem
            rcases List.mem_cons.mp hcmem with hcx | hca
            · exact hx hcx.symm
            · exact ha.1 hca
          · intro y hy
            rcases List.mem_cons.mp hy with rfl | hya
            · exact List.mem_cons_self y xs
            · exact List.mem_cons_of_mem x (ha.2 y hya)
        · have ha := ih s (by rw [hr]; exact List.mem_cons_of_mem a hs)
          exact ⟨ha.1, fun y hy => List.mem_cons_of_mem x (ha.2 y hy)⟩

theorem dropStart?_append (p r : List Char) : dropStart? p (p ++ r) = some r := by
  induction p with
  | nil => rfl
  | cons x xs ih => simp [dropStart?, ih]

theorem dropStart?_eq_some (p : List Char) :
    ∀ l r : List Char, dropStart? p l = some r → l = p ++ r := by
  induction p with
  | nil =>
    intro l r h
    simp only [dropStart?, Option.some.injEq] at h
    simp [h]
  | cons c cs ih =>
    intro l r h
    cases l with
    | nil => exact absurd h (by simp [dropStart?])
    | cons x xs =>
      rw [dropStart?] at h
      by_cases hx : x = c
      · rw [if_pos hx] at h
        subst hx
        rw [List.cons_append, ih xs r h]
      · rw [if_neg hx] at h
        exact absurd h (by simp)

theorem dropScheme?_append (sch : UrlScheme) (r : List Char) :
    dropScheme? (sch.chars ++ schemeSep ++ r) = some (sch, r) := by
  cases sch
  · rw [dropScheme?, dropStart?_append]
  · rw [dropScheme?]
    have h1 : dropStart? (UrlScheme.http.chars ++ schemeSep)
        (UrlScheme.https.chars ++ schemeSep ++ r) = none := by
      simp [UrlScheme.chars, schemeSep, dropStart?]
    rw [h1, dropStart?_append]

theorem dropScheme?_eq_some (l : List Char) (sch : UrlScheme)
    (r : List Char) (h : dropScheme? l = some (sch, r)) :
    l = sch.chars ++ schemeSep ++ r := by
  rw [dropScheme?] at h
  rcases h1 : dropStart? (UrlScheme.http.chars ++ schemeSep) l with _ | r1
  · rw [h1] at h
    rcases h2 : dropStart? (UrlScheme.https.chars ++ schemeSep) l with _ | r2
    · rw [h2] at h
      exact absurd h (by simp)
    · rw [h2] at h
      simp only [Option.some.injEq, Prod.mk.injEq] at h
      rcases h with ⟨hsch, hr⟩
      subst hr
      rw [← hsch]
      exact dropStart?_eq_some _ l _ h2
  · rw [h1] at h
    simp only [Option.some.injEq, Prod.mk.injEq] at h
    rcases h with ⟨hsch, hr⟩
    subst hr
    rw [← hsch]
    exact dropStart?_eq_some _ l _ h1

/-- Characters of a serialised query are `=`, `&`, or characters of the
entries. -/
theorem mem_serializeQueryChars (q : List (List Char × List Char)) :
    ∀ x ∈ serializeQueryChars q,
      x = '=' ∨ x = '&' ∨ ∃ e ∈ q, x ∈ e.1 ∨ x ∈ e.2 := by
  induction q with
  | nil => simp [serializeQueryChars]
  | cons e tail ih =>
    rcases e with ⟨n, v⟩
    cases tail with
    | nil =>
      intro x hx
      rw [serializeQueryChars] at hx
      rcases List.mem_append.mp hx with hx | hx
      · exact Or.inr (Or.inr ⟨(n, v), List.mem_singleton.mpr rfl, Or.inl hx⟩)
      · rcases List.mem_cons.mp hx with rfl | hx
        · exact Or.inl rfl
        · exact Or.inr (Or.inr ⟨(n, v), List.mem_singleton.mpr rfl, Or.inr hx⟩)
    | cons e2 t2 =>
      intro x hx
      rw [show serializeQueryChars ((n, v) :: e2 :: t2) =
        (n ++ '=' :: v) ++ '&' :: serializeQueryChars (e2 :: t2) from rfl] at hx
      rcases List.mem_append.mp hx with hx | hx
      · rcases List.mem_append.mp hx with hx | hx
        · exact Or.inr (Or.inr ⟨(n, v), List.mem_cons_self _ _, Or.inl hx⟩)
        · rcases List.mem_cons.mp hx with rfl | hx
          · exact Or.inl rfl
          · exact Or.inr (Or.inr ⟨(n, v), List.mem_cons_self _ _, Or.inr hx⟩)
      · rcases List.mem_cons.mp hx with rfl | hx
        · exact Or.inr (Or.inl rfl)
        · rcases ih x hx with h | h | ⟨e3, he3, hm⟩
          · exact Or.inl h
          · exact Or.inr (Or.inl h)
          · exact Or.inr (Or.inr ⟨e3, List.mem_cons_of_mem _ he3, hm⟩)

/-- Parsing a serialised well-formed query recovers the entries. -/
theorem parseQueryChars_serialize (q : List (List Char × List Char))
    (hq : QueryWF q) : parseQueryChars (serializeQueryChars q) = q := by
  induction q with
  | nil => rfl
  | cons e tail ih =>
    rcases e with ⟨n, v⟩
    have hn : '&' ∉ n := (hq (n, v) (List.mem_cons_self _ _)).1
    have hv : '&' ∉ v := (hq (n, v) (List.mem_cons_self _ _)).2.1
    have hne : '=' ∉ n := (hq (n, v) (List.mem_cons_self _ _)).2.2.1
    have hseg : '&' ∉ n ++ '=' :: v := by
      intro hm
      rcases List.mem_append.mp hm with hm | hm
      · exact hn hm
      · rcases List.mem_cons.mp hm with hm | hm
        · exact absurd hm.symm (by decide)
        · exact hv hm
    have hsegne : n ++ '=' :: v ≠ [] := by
      intro hnil
      have := congrArg List.length hnil
      simp at this
    cases tail with
    | nil =>
      rw [serializeQueryChars, parseQueryChars,
        splitOnChar_of_not_mem _ _ hseg]
      simp only [List.filter_cons, List.filter_nil, hsegne,
        decide_not, List.map_cons, List.map_nil]
      rw [if_pos (by simp [hsegne])]
      simp [splitFirstChar_append '=' n v hne]
    | cons e2 t2 =>
      have hq2 : QueryWF (e2 :: t2) := fun e he =>
        hq e (List.mem_cons_of_mem _ he)
      rw [show serializeQueryChars ((n, v) :: e2 :: t2) =
        (n ++ '=' :: v) ++ '&' :: serializeQueryChars (e2 :: t2) from rfl,
        parseQueryChars, splitOnChar_append _ _ _ hseg]
      simp only [List.filter_cons]
      rw [if_pos (by simp [hsegne])]
      simp only [List.map_cons]
      rw [splitFirstChar_append '=' n v hne]
      have htail := ih hq2
      rw [parseQueryChars] at htail
      rw [htail]
      rfl

/-- The entries produced by `parseQueryChars` are well-formed whenever the
query string contains no `#`. -/
theorem parseQueryChars_wf (qs : List Char) (hh : '#' ∉ qs) :
    QueryWF (parseQueryChars qs) := by
  intro e he
  rw [parseQueryChars] at he
  rcases List.mem_map.mp he with ⟨seg, hseg, hfe⟩
  have hseg2 := List.mem_filter.mp hseg
  have hsp := mem_splitOnChar '&' qs seg hseg2.1
  rcases hr : splitFirstChar '=' seg with ⟨nm, vo⟩
  simp only [hr] at hfe
  subst hfe
  cases vo with
  | none =>
    rcases splitFirstChar_eq_none '=' seg nm hr with ⟨rfl, hne⟩
    refine ⟨fun hm => hsp.1 hm, by simp, hne, ?_, by simp⟩
    exact fun hm => hh (hsp.2 '#' hm)
  | some v =>
    rcases splitFirstChar_eq_some '=' seg nm v hr with ⟨hdec, hne⟩
    have hnm_sub : ∀ x ∈ nm, x ∈ seg := by
      intro x hx
      rw [hdec]
      exact List.mem_append.mpr (Or.inl hx)
    have hv_sub : ∀ x ∈ v, x ∈ seg := by
      intro x hx
      rw [hdec]
      exact List.mem_append.mpr (Or.inr (List.mem_cons_of_mem _ hx))
    refine ⟨fun hm => hsp.1 (hnm_sub '&' hm),
      fun hm => hsp.1 (hv_sub '&' hm), hne,
      fun hm => hh (hsp.2 '#' (hnm_sub '#' hm)),
      fun hm => hh (hsp.2 '#' (hv_sub '#' hm))⟩

/-- Every record produced by `parseUrlChars` is well-formed. -/
theorem parse_wf (l : List Char) (u : UrlRec)
    (h : parseUrlChars l = some u) : UrlWF u := by
  simp only [parseUrlChars] at h
  rcases h1 : splitFirstChar '#' l with ⟨bh, ho⟩
  simp only [h1] at h
  rcases h2 : splitFirstChar '?' bh with ⟨bq, qo⟩
  simp only [h2] at h
  rcases h3 : dropScheme? bq with _ | ⟨sch, rest⟩
  · simp only [h3] at h
    exact absurd h (by simp)
  · simp only [h3] at h
    rcases h4 : splitFirstChar '/' rest with ⟨hostl, po⟩
    simp only [h4] at h
    by_cases hhe : hostl = []
    · rw [if_pos hhe] at h
      exact absurd h (by simp)
    · rw [if_neg hhe] at h
      have hu := Option.some_injective _ h
      subst hu
      have hbh : '#' ∉ bh := by
        cases ho with
        | none =>
          rcases splitFirstChar_eq_none '#' l bh h1 with ⟨rfl, hnl⟩
          exact hnl
        | some hs => exact (splitFirstChar_eq_some '#' l bh hs h1).2
      have hbq_no : '?' ∉ bq := by
        cases qo with
        | none =>
          rcases splitFirstChar_eq_none '?' bh bq h2 with ⟨rfl, hnl⟩
          exact hnl
        | some qs => exact (splitFirstChar_eq_some '?' bh bq qs h2).2
      have hbq_sub : ∀ x ∈ bq, x ∈ bh := by
        have hsub := splitFirstChar_fst_subset '?' bh
        rw [h2] at hsub
        exact hsub
      have hbq_eq := dropScheme?_eq_some bq sch rest h3
      have hrest_sub : ∀ x ∈ rest, x ∈ bq := by
        intro x hx
        rw [hbq_eq]
        exact List.mem_append.mpr (Or.inr hx)
      have hhost_slash : '/' ∉ hostl := by
        cases po with
        | none =>
          rcases splitFirstChar_eq_none '/' rest hostl h4 with ⟨rfl, hnl⟩
          exact hnl
        | some p => exact (splitFirstChar_eq_some '/' rest hostl p h4).2
      have hhost_sub : ∀ x ∈ hostl, x ∈ rest := by
        have hsub := splitFirstChar_fst_subset '/' rest
        rw [h4] at hsub
        exact hsub
      have hpo_sub : ∀ x ∈ po.getD [], x ∈ rest := by
        cases po with
        | none => simp
        | some p =>
          rcases splitFirstChar_eq_some '/' rest hostl p h4 with ⟨hre, _⟩
          intro x hx
          rw [hre]
          exact List.mem_append.mpr (Or.inr (List.mem_cons_of_mem _ hx))
      refine ⟨hhe, hhost_slash,
        fun hm => hbq_no (hrest_sub '?' (hhost_sub '?' hm)),
        fun hm => hbh (hbq_sub '#' (hrest_sub '#' (hhost_sub '#' hm))),
        ⟨po.getD [], rfl⟩, ?_, ?_, ?_⟩
      · intro hm
        rcases List.mem_cons.mp hm with hm | hm
        · exact absurd hm (by decide)
        · exact hbq_no (hrest_sub '?' (hpo_sub '?' hm))
      · intro hm
        rcases List.mem_cons.mp hm with hm | hm
        · exact absurd hm (by decide)
        · exact hbh (hbq_sub '#' (hrest_sub '#' (hpo_sub '#' hm)))
      · cases qo with
        | none => intro e he; exact absurd he (by simp)
        | some qs =>
          rcases splitFirstChar_eq_some '?' bh bq qs h2 with ⟨hbh_eq, _⟩
          have hqs_hash : '#' ∉ qs := by
            intro hm
            exact hbh (hbh_eq ▸
              List.mem_append.mpr (Or.inr (List.mem_cons_of_mem _ hm)))
          exact parseQueryChars_wf qs hqs_hash

/-- Serialising a well-formed record with no fragment and parsing it back
recovers the record. -/
theorem parse_href (u : UrlRec) (hwf : UrlWF u) (hh : u.hash = none) :
    parseUrlChars (hrefChars u) = some u := by
  obtain ⟨sch, host, path, search, hsh⟩ := u
  obtain ⟨hhost_ne, hhost_slash, hhost_q, hhost_hash, ⟨p, hpath⟩,
    hpath_q, hpath_hash, hq⟩ := hwf
  dsimp only at hhost_ne hhost_slash hhost_q hhost_hash hpath hpath_q hpath_hash hq hh
  subst hh
  subst hpath
  have hsch_q : '?' ∉ sch.chars ++ schemeSep := by
    cases sch <;> decide
  have hsch_hash : '#' ∉ sch.chars ++ schemeSep := by
    cases sch <;> decide
  have hpre_q : '?' ∉ sch.chars ++ schemeSep ++ host ++ '/' :: p := by
    intro hm
    rcases List.mem_append.mp hm with hm | hm
    · rcases List.mem_append.mp hm with hm | hm
      · exact hsch_q hm
      · exact hhost_q hm
    · exact hpath_q hm
  have hpre_hash : '#' ∉ sch.chars ++ schemeSep ++ host ++ '/' :: p := by
    intro hm
    rcases List.mem_append.mp hm with hm | hm
    · rcases List.mem_append.mp hm with hm | hm
      · exact hsch_hash hm
      · exact hhost_hash hm
    · exact hpath_hash hm
  have hsplit_host : splitFirstChar '/' (host ++ '/' :: p) =
      (host, some p) :=
    splitFirstChar_append '/' host p hhost_slash
  have hassoc : sch.chars ++ schemeSep ++ host ++ '/' :: p =
      sch.chars ++ schemeSep ++ (host ++ '/' :: p) := by
    rw [List.append_assoc]
  rcases hse : search with _ | ⟨e, es⟩
  · have hhref : hrefChars ⟨sch, host, '/' :: p, [], none⟩ =
        sch.chars ++ schemeSep ++ host ++ '/' :: p := by
      simp [hrefChars]
    rw [hhref]
    simp only [parseUrlChars, splitFirstChar_of_not_mem '#' _ hpre_hash]
    simp only [splitFirstChar_of_not_mem '?' _ hpre_q]
    rw [hassoc]
    simp only [dropScheme?_append, hsplit_host]
    rw [if_neg hhost_ne]
    simp
  · have hq_hash : '#' ∉ serializeQueryChars (e :: es) := by
      intro hm
      rcases mem_serializeQueryChars (e :: es) '#' hm with hc | hc | ⟨e2, he2, hm2⟩
      · exact absurd hc (by decide)
      · exact absurd hc (by decide)
      · rcases hm2 with hm2 | hm2
        · exact (hq e2 (hse ▸ he2)).2.2.2.1 hm2
        · exact (hq e2 (hse ▸ he2)).2.2.2.2 hm2
    have hhref : hrefChars ⟨sch, host, '/' :: p, e :: es, none⟩ =
        (sch.chars ++ schemeSep ++ host ++ '/' :: p) ++
          '?' :: serializeQueryChars (e :: es) := by
      simp [hrefChars]
    have hhash_all : '#' ∉
        (sch.chars ++ schemeSep ++ host ++ '/' :: p) ++
          '?' :: serializeQueryChars (e :: es) := by
      intro hm
      rcases List.mem_append.mp hm with hm | hm
      · exact hpre_hash hm
      · rcases List.mem_cons.mp hm with hm | hm
        · exact absurd hm (by decide)
        · exact hq_hash hm
    rw [hhref]
    simp only [parseUrlChars, splitFirstChar_of_not_mem '#' _ hhash_all]
    simp only [splitFirstChar_append '?' _ _ hpre_q]
    rw [hassoc]
    simp only [dropScheme?_append, hsplit_host]
    rw [if_neg hhost_ne]
    rw [parseQueryChars_serialize (e :: es) (hse ▸ hq)]
    simp


/-- Stripping one trailing slash keeps the characters of the pathname. -/
theorem stripTrailingSlash_subset (p : List Char) :
    ∀ x ∈ stripTrailingSlash p, x ∈ p := by
  rw [stripTrailingSlash]
  split
  · exact fun x hx => List.dropLast_subset p hx
  · exact fun x hx => hx

/-- Stripping one trailing slash keeps the leading slash. -/
theorem stripTrailingSlash_shape (p q : List Char) (h : p = '/' :: q) :
    ∃ q2, stripTrailingSlash p = '/' :: q2 := by
  subst h
  rw [stripTrailingSlash]
  split
  case isTrue hc =>
    cases q with
    | nil => simp at hc
    | cons y ys =>
      exact ⟨(y :: ys).dropLast, by rw [List.dropLast_cons₂]⟩
  case isFalse hc => exact ⟨q, rfl⟩

/-- When the pathname does not end in a double slash, one stripping pass
reaches a fixed point. -/
theorem stripTrailingSlash_stable (p : List Char)
    (hp : ¬ List.IsSuffix ['/', '/'] p) :
    stripTrailingSlash (stripTrailingSlash p) = stripTrailingSlash p := by
  by_cases h1 : 1 < p.length ∧ p.getLast? = some '/'
  · have hs : stripTrailingSlash p = p.dropLast := by
      rw [stripTrailingSlash, if_pos h1]
    rw [hs]
    rw [stripTrailingSlash, if_neg ?_]
    rintro ⟨hl2, hlast2⟩
    apply hp
    have e1 : p.dropLast ++ ['/'] = p :=
      List.dropLast_append_getLast? '/' h1.2
    have e2 : p.dropLast.dropLast ++ ['/'] = p.dropLast :=
      List.dropLast_append_getLast? '/' hlast2
    refine ⟨p.dropLast.dropLast, ?_⟩
    rw [show ['/', '/'] = ['/'] ++ ['/'] from rfl, ← List.append_assoc, e2, e1]
  · have hs : stripTrailingSlash p = p := by
      rw [stripTrailingSlash, if_neg h1]
    rw [hs, hs]

theorem filter_fst_nil (q : List (List Char × List Char)) (n : List Char)
    (h : n ∉ q.map Prod.fst) : q.filter (fun e => e.1 == n) = [] := by
  induction q with
  | nil => rfl
  | cons e tail ih =>
    rw [List.filter_cons]
    have hne : ¬ (e.1 == n) = true := by
      simp only [beq_iff_eq]
      intro he
      exact h (List.mem_map.mpr ⟨e, List.mem_cons_self _ _, he⟩)
    rw [if_neg hne]
    refine ih ?_
    intro hm
    exact h (by rw [List.map_cons]; exact List.mem_cons_of_mem _ hm)

theorem filter_fst_single (q : List (List Char × List Char)) (n : List Char)
    (hnd : (q.map Prod.fst).Nodup) (hn : n ∈ q.map Prod.fst) :
    ∃ v, q.filter (fun e => e.1 == n) = [(n, v)] := by
  induction q with
  | nil => simp at hn
  | cons e tail ih =>
    rw [List.map_cons] at hn hnd
    rcases List.mem_cons.mp hn with he | hn2
    · subst he
      refine ⟨e.2, ?_⟩
      rw [List.filter_cons, if_pos (by simp)]
      rw [filter_fst_nil tail e.1 (List.nodup_cons.mp hnd).1]
    · have hne : ¬ (e.1 == n) = true := by
        simp only [beq_iff_eq]
        intro he
        exact (List.nodup_cons.mp hnd).1 (he ▸ hn2)
      rw [List.filter_cons, if_neg hne]
      exact ih (List.nodup_cons.mp hnd).2 hn2

theorem flatMap_congr_mem {α β : Type} (l : List α) (f g : α → List β)
    (h : ∀ x ∈ l, f x = g x) : l.flatMap f = l.flatMap g := by
  induction l with
  | nil => rfl
  | cons x xs ih =>
    rw [List.flatMap_cons, List.flatMap_cons, h x (List.mem_cons_self _ _),
      ih (fun y hy => h y (List.mem_cons_of_mem _ hy))]

theorem map_fst_flatMap_filter (q : List (List Char × List Char))
    (names : List (List Char)) (hnd : (q.map Prod.fst).Nodup)
    (hmem : ∀ n ∈ names, n ∈ q.map Prod.fst) :
    (names.flatMap (fun n => q.filter (fun e => e.1 == n))).map Prod.fst =
      names := by
  induction names with
  | nil => rfl
  | cons n tail ih =>
    rw [List.flatMap_cons, List.map_append]
    rcases filter_fst_single q n hnd (hmem n (List.mem_cons_self _ _)) with ⟨v, hv⟩
    rw [hv]
    rw [ih (fun m hm => hmem m (List.mem_cons_of_mem _ hm))]
    rfl

theorem flatMap_filter_self (s : List (List Char × List Char))
    (hnd : (s.map Prod.fst).Nodup) :
    (s.map Prod.fst).flatMap (fun n => s.filter (fun e => e.1 == n)) = s := by
  induction s with
  | nil => rfl
  | cons e tail ih =>
    rw [List.map_cons] at hnd ⊢
    rw [List.flatMap_cons]
    have hhead : (e :: tail).filter (fun e2 => e2.1 == e.1) = [e] := by
      rw [List.filter_cons, if_pos (by simp)]
      rw [filter_fst_nil tail e.1 (List.nodup_cons.mp hnd).1]
    rw [hhead]
    have hcong : (tail.map Prod.fst).flatMap
          (fun n => (e :: tail).filter (fun e2 => e2.1 == n)) =
        (tail.map Prod.fst).flatMap (fun n => tail.filter (fun e2 => e2.1 == n)) := by
      apply flatMap_congr_mem
      intro n hn
      rw [List.filter_cons]
      have hne : ¬ (e.1 == n) = true := by
        simp only [beq_iff_eq]
        intro he
        exact (List.nodup_cons.mp hnd).1 (he ▸ hn)
      rw [if_neg hne]
    rw [hcong, ih (List.nodup_cons.mp hnd).2]
    rfl

theorem sortQueryEntries_eq_self (s : List (List Char × List Char))
    (hs : (s.map Prod.fst).Sorted (fun a b => a ≤ b))
    (hnd : (s.map Prod.fst).Nodup) : sortQueryEntries s = s := by
  rw [sortQueryEntries, List.Sorted.insertionSort_eq hs,
    flatMap_filter_self s hnd]

/-- The query-sorting pass is idempotent when no parameter name is
repeated. -/
theorem sortQueryEntries_idem (q : List (List Char × List Char))
    (hnd : (q.map Prod.fst).Nodup) :
    sortQueryEntries (sortQueryEntries q) = sortQueryEntries q := by
  have hperm : List.Perm
      (List.insertionSort (fun a b => a ≤ b) (q.map Prod.fst))
      (q.map Prod.fst) := List.perm_insertionSort _ _
  have hfst : (sortQueryEntries q).map Prod.fst =
      List.insertionSort (fun a b => a ≤ b) (q.map Prod.fst) := by
    rw [sortQueryEntries]
    exact map_fst_flatMap_filter q _ hnd
      (fun n hn => (List.Perm.mem_iff hperm).mp hn)
  have hnd2 : ((sortQueryEntries q).map Prod.fst).Nodup := by
    rw [hfst]
    exact (List.Perm.nodup_iff hperm).mpr hnd
  have hs2 : ((sortQueryEntries q).map Prod.fst).Sorted (fun a b => a ≤ b) := by
    rw [hfst]
    exact List.sorted_insertionSort _ _
  exact sortQueryEntries_eq_self _ hs2 hnd2

theorem mem_sortQueryEntries (q : List (List Char × List Char))
    (e : List Char × List Char) (h : e ∈ sortQueryEntries q) : e ∈ q := by
  rw [sortQueryEntries] at h
  rcases List.mem_flatMap.mp h with ⟨n, _, hf⟩
  exact (List.mem_filter.mp hf).1

/-- Normalising preserves record well-formedness. -/
theorem normalizeUrlRec_wf (u : UrlRec) (hwf : UrlWF u) :
    UrlWF (normalizeUrlRec u) := by
  obtain ⟨h1, h2, h3, h4, ⟨p, hp⟩, h5, h6, h7⟩ := hwf
  refine ⟨h1, h2, h3, h4, stripTrailingSlash_shape u.pathname p hp, ?_, ?_, ?_⟩
  · intro hm
    exact h5 (stripTrailingSlash_subset u.pathname '?' hm)
  · intro hm
    exact h6 (stripTrailingSlash_subset u.pathname '#' hm)
  · intro e he
    exact h7 e (mem_sortQueryEntries u.search e he)

/-- The per-record normalisation is idempotent when the pathname does not
end in a double slash and no query name is repeated. -/
theorem normalizeUrlRec_idem (u : UrlRec)
    (hp : ¬ List.IsSuffix ['/', '/'] u.pathname)
    (hnd : (u.search.map Prod.fst).Nodup) :
    normalizeUrlRec (normalizeUrlRec u) = normalizeUrlRec u := by
  unfold normalizeUrlRec
  dsimp only
  rw [stripTrailingSlash_stable u.pathname hp, sortQueryEntries_idem u.search hnd]

theorem normalizeUrl_of_parse_none (s : String)
    (h : parseUrlChars s.data = none) : normalizeUrl s = s := by
  rw [normalizeUrl, h]

theorem normalizeUrl_of_parse_some (s : String) (u : UrlRec)
    (h : parseUrlChars s.data = some u) :
    normalizeUrl s = String.mk (hrefChars (normalizeUrlRec u)) := by
  rw [normalizeUrl, h]

/-- `normalizeUrl` is idempotent on every `NormalizeStable` input. -/
theorem normalizeUrl_stable (s : String) (hs : NormalizeStable s) :
    normalizeUrl (normalizeUrl s) = normalizeUrl s := by
  rcases hp : parseUrlChars s.data with _ | u
  · rw [normalizeUrl_of_parse_none s hp, normalizeUrl_of_parse_none s hp]
  · have hcond := hs u hp
    have hwf2 := normalizeUrlRec_wf u (parse_wf s.data u hp)
    have hround : parseUrlChars (hrefChars (normalizeUrlRec u)) =
        some (normalizeUrlRec u) := parse_href _ hwf2 rfl
    rw [normalizeUrl_of_parse_some s u hp,
      normalizeUrl_of_parse_some (String.mk (hrefChars (normalizeUrlRec u)))
        (normalizeUrlRec u) hround,
      normalizeUrlRec_idem u hcond.1 hcond.2]

theorem insertionDedup_go (l : List String) :
    ∀ acc : List String, acc.Nodup →
      ((l.foldl (fun acc x => if x ∈ acc then acc else acc ++ [x]) acc).Nodup
        ∧ ∀ x ∈ l.foldl (fun acc x => if x ∈ acc then acc else acc ++ [x]) acc,
            x ∈ acc ∨ x ∈ l) := by
  induction l with
  | nil => exact fun acc h => ⟨h, fun x hx => Or.inl hx⟩
  | cons y ys ih =>
    intro acc hacc
    rw [List.foldl_cons]
    by_cases hy : y ∈ acc
    · rw [if_pos hy]
      rcases ih acc hacc with ⟨h1, h2⟩
      refine ⟨h1, fun x hx => ?_⟩
      rcases h2 x hx with h | h
      · exact Or.inl h
      · exact Or.inr (List.mem_cons_of_mem _ h)
    · rw [if_neg hy]
      rcases ih (acc ++ [y]) (nodup_append_one hacc hy) with ⟨h1, h2⟩
      refine ⟨h1, fun x hx => ?_⟩
      rcases h2 x hx with h | h
      · rcases List.mem_append.mp h with h | h
        · exact Or.inl h
        · simp only [List.mem_singleton] at h
          exact Or.inr (h ▸ List.mem_cons_self _ _)
      · exact Or.inr (List.mem_cons_of_mem _ h)

theorem insertionDedup_nodup (l : List String) : (insertionDedup l).Nodup :=
  (insertionDedup_go l [] List.nodup_nil).1

theorem mem_insertionDedup (l : List String) (x : String)
    (h : x ∈ insertionDedup l) : x ∈ l := by
  rcases (insertionDedup_go l [] List.nodup_nil).2 x h with h | h
  · exact absurd h (by simp)
  · exact h

theorem foldl_dedup_of_fresh (l : List String) :
    ∀ acc : List String, (∀ x ∈ l, x ∉ acc) → l.Nodup →
      l.foldl (fun acc x => if x ∈ acc then acc else acc ++ [x]) acc =
        acc ++ l := by
  induction l with
  | nil => intro acc _ _; simp
  | cons y ys ih =>
    intro acc hfresh hnd
    rw [List.foldl_cons, if_neg (hfresh y (List.mem_cons_self _ _))]
    rw [ih (acc ++ [y]) ?_ (List.nodup_cons.mp hnd).2]
    · rw [List.append_assoc]
      rfl
    · intro x hx hmem
      rcases List.mem_append.mp hmem with h | h
      · exact hfresh x (List.mem_cons_of_mem _ hx) h
      · simp only [List.mem_singleton] at h
        exact (List.nodup_cons.mp hnd).1 (h ▸ hx)

theorem insertionDedup_eq_self (l : List String) (h : l.Nodup) :
    insertionDedup l = l := by
  rw [insertionDedup, foldl_dedup_of_fresh l [] (by simp) h]
  rfl

theorem map_self_of_fix {l : List String} {f : String → String}
    (h : ∀ x ∈ l, f x = x) : l.map f = l := by
  induction l with
  | nil => rfl
  | cons x xs ih =>
    rw [List.map_cons, h x (List.mem_cons_self _ _),
      ih (fun y hy => h y (List.mem_cons_of_mem _ hy))]

/-- C9 counterexample: `normalizeUrl` strips only one trailing slash, so
on a pathname ending in a double slash a second application strips again
and the result differs; consequently `deduplicateLinks` applied to its own
output also changes it. -/
theorem normalizeUrl_not_idempotent :
    normalizeUrl (normalizeUrl "http://site.test/a//") ≠
        normalizeUrl "http://site.test/a//"
      ∧ deduplicateLinks (deduplicateLinks ["http://site.test/a//"]) ≠
        deduplicateLinks ["http://site.test/a//"] := by
  decide

/-- C9 (amended): `normalizeUrl` is idempotent on every input that fails
to parse, and on every parseable input whose pathname does not end in a
double slash and whose query has no repeated parameter name (it strips
only one trailing slash per pass, and the sorting pass re-appends a
repeated name once per occurrence, so inputs outside these conditions
change on a second pass); under the same conditions on every link,
`deduplicateLinks` applied to its own output returns it unchanged. -/
theorem normalizeUrl_idem_dedup (s : String) (links : List String)
    (hs : NormalizeStable s) (hl : ∀ x ∈ links, NormalizeStable x) :
    normalizeUrl (normalizeUrl s) = normalizeUrl s
      ∧ deduplicateLinks (deduplicateLinks links) = deduplicateLinks links := by
  refine ⟨normalizeUrl_stable s hs, ?_⟩
  have hfix : ∀ x ∈ deduplicateLinks links, normalizeUrl x = x := by
    intro x hx
    have hx2 := mem_insertionDedup _ x hx
    rcases List.mem_map.mp hx2 with ⟨y, hy, rfl⟩
    exact normalizeUrl_stable y (hl y hy)
  have h2 : deduplicateLinks (deduplicateLinks links) =
      insertionDedup (deduplicateLinks links) := by
    rw [deduplicateLinks, map_self_of_fix hfix]
  rw [h2]
  exact insertionDedup_eq_self (deduplicateLinks links)
    (by rw [deduplicateLinks]; exact insertionDedup_nodup _)


/-- `NormalizeStable` holds when the parse is known and satisfies the two
side conditions. -/
theorem normalizeStable_of_parse_some (s : String) (u : UrlRec)
    (h : parseUrlChars s.data = some u)
    (h1 : ¬ List.IsSuffix ['/', '/'] u.pathname)
    (h2 : (u.search.map Prod.fst).Nodup) : NormalizeStable s := by
  intro u2 hu2
  rw [h] at hu2
  rcases Option.some_injective _ hu2 with rfl
  exact ⟨h1, h2⟩

/-- C9 witness: a URL with a single trailing slash and unsorted distinct
query parameters is normalised idempotently, and deduplication of a
two-link list is a fixed point of itself. -/
theorem normalizeUrl_idem_dedup_witness :
    normalizeUrl (normalizeUrl "http://site.test/a/?b=2&a=1") =
        normalizeUrl "http://site.test/a/?b=2&a=1"
      ∧ deduplicateLinks (deduplicateLinks
            ["http://site.test/a/", "http://site.test/a"]) =
        deduplicateLinks ["http://site.test/a/", "http://site.test/a"] := by
  refine normalizeUrl_idem_dedup "http://site.test/a/?b=2&a=1"
    ["http://site.test/a/", "http://site.test/a"] ?_ ?_
  · exact normalizeStable_of_parse_some "http://site.test/a/?b=2&a=1"
      ⟨.http, "site.test".data, "/a/".data,
        [("b".data, "2".data), ("a".data, "1".data)], none⟩
      (by decide) (by decide) (by decide)
  · intro x hx
    rcases List.mem_cons.mp hx with rfl | hx
    · exact normalizeStable_of_parse_some "http://site.test/a/"
        ⟨.http, "site.test".data, "/a/".data, [], none⟩
        (by decide) (by decide) (by decide)
    · rcases List.mem_singleton.mp hx with rfl
      exact normalizeStable_of_parse_some "http://site.test/a"
        ⟨.http, "site.test".data, "/a".data, [], none⟩
        (by decide) (by decide) (by decide)

end OceanScraper

